import Mathlib

/-!
# megamatchers: the `DiffEqual` matcher

A shallow embedding of `diff_equals.go`.  The matcher itself (`DiffEqual`, `Match`,
`FailureMessage`, `NegatedFailureMessage`, `message`) is translated line by line.  The Go
values it receives as `interface{}` are represented by the tagged tree `Value`; the library
routines it calls (`reflect.DeepEqual`, `pretty.Diff`, `fmt.Sprintf`, `strings.Join`,
`format.Object`) are either modelled on that representation or taken as parameters.

Scope of the value model: the nil interface, booleans, integers, floats (by IEEE-754 bit
pattern), strings, functions, pointers, slices, maps with scalar keys and structs.  Every
pointer, slice and map carries the address of the object it refers to, so that two
references to one object can be told from two equal copies.  Addresses count cells: the
target of a pointer is one cell, the i-th element of a slice with base `b` is the cell
`b + i`.  Values are finite trees: cyclic structures, arrays, channels and complex numbers
are outside the model.
-/

namespace Megamatchers

/-! ## Go types and values -/

/-- Run-time type descriptors, as compared by `reflect.Type` identity.  Scalar and struct
types are identified by their name (`int`, `float64`, `string`, `main.Point`, ...). -/
inductive GoType where
  | named (name : String)
  | iface
  | ptr (elem : GoType)
  | slice (elem : GoType)
  | map (key elem : GoType)
  | func (sig : String)
  deriving DecidableEq, Repr

/-- Scalar values, each tagged with the name of its type.  An integer of any width is an
`Int`; a float is the bit pattern of its `float64` value. -/
inductive Scalar where
  | bool (ty : String) (b : Bool)
  | int (ty : String) (n : Int)
  | float (ty : String) (bits : Nat)
  | string (ty : String) (s : String)
  deriving DecidableEq, Repr

mutual
/-- A Go value held in an `interface{}`.  `nil` is the nil interface (no dynamic type);
`nilPtr`, `nilSlice`, `nilMap` and `func _ none` are typed nils. -/
inductive Value where
  | nil
  | scalar (s : Scalar)
  | func (sig : String) (code : Option Nat)
  | nilPtr (elem : GoType)
  | ptr (elem : GoType) (addr : Nat) (target : Value)
  | nilSlice (elem : GoType)
  | slice (elem : GoType) (base : Nat) (elems : Values)
  | nilMap (key elem : GoType)
  | map (key elem : GoType) (id : Nat) (entries : Entries)
  | struct (name : String) (fields : Values)
/-- The elements of a slice, or the fields of a struct in declaration order. -/
inductive Values where
  | nil
  | cons (head : Value) (tail : Values)
/-- The entries of a map. -/
inductive Entries where
  | nil
  | cons (key : Scalar) (val : Value) (tail : Entries)
end

/-- The name of the type of a scalar. -/
def Scalar.ty : Scalar → String
  | .bool t _ => t
  | .int t _ => t
  | .float t _ => t
  | .string t _ => t

/-- A float64 bit pattern is a NaN when its exponent is all ones and its mantissa is not
zero. -/
def isNaN (bits : Nat) : Bool :=
  (bits / 2 ^ 52) % 2 ^ 11 == 2047 && bits % 2 ^ 52 != 0

/-- Go's `==` on two float64 values given by their bits: a NaN equals nothing, the two
zeros equal each other, any other two values are equal when their bits are. -/
def floatEq (a b : Nat) : Bool :=
  !isNaN a && !isNaN b && (a % 2 ^ 64 == b % 2 ^ 64 || (a % 2 ^ 63 == 0 && b % 2 ^ 63 == 0))

/-- Go's `==` on two scalars held in interfaces: the same type and equal values. -/
def Scalar.goEq : Scalar → Scalar → Bool
  | .bool t1 a, .bool t2 b => t1 == t2 && a == b
  | .int t1 a, .int t2 b => t1 == t2 && a == b
  | .float t1 a, .float t2 b => t1 == t2 && floatEq a b
  | .string t1 a, .string t2 b => t1 == t2 && a == b
  | _, _ => false

/-- Whether the scalar is a floating-point NaN. -/
def Scalar.isNaN : Scalar → Bool
  | .float _ bits => Megamatchers.isNaN bits
  | _ => false

/-- The Go test `v == nil` on an `interface{}`: true for the nil interface only. -/
def Value.isNil : Value → Bool
  | .nil => true
  | _ => false

/-- The dynamic type, `reflect.TypeOf`; the nil interface has none. -/
def Value.typeOf : Value → Option GoType
  | .nil => none
  | .scalar s => some (.named s.ty)
  | .func sig _ => some (.func sig)
  | .nilPtr t => some (.ptr t)
  | .ptr t _ _ => some (.ptr t)
  | .nilSlice t => some (.slice t)
  | .slice t _ _ => some (.slice t)
  | .nilMap k e => some (.map k e)
  | .map k e _ _ => some (.map k e)
  | .struct n _ => some (.named n)

/-- Number of elements, `len`. -/
def Values.length : Values → Nat
  | .nil => 0
  | .cons _ t => t.length + 1

/-- Number of entries, `len`. -/
def Entries.length : Entries → Nat
  | .nil => 0
  | .cons _ _ t => t.length + 1

/-- The elements as a list. -/
def Values.toList : Values → List Value
  | .nil => []
  | .cons x t => x :: t.toList

/-- The entries as a list of key/value pairs. -/
def Entries.toList : Entries → List (Scalar × Value)
  | .nil => []
  | .cons k v t => (k, v) :: t.toList

/-- Map lookup, `reflect.Value.MapIndex`: the value stored under a key equal (by `==`) to
`k`, if there is one. -/
def Entries.find? (k : Scalar) : Entries → Option Value
  | .nil => none
  | .cons k2 v rest => if k.goEq k2 then some v else rest.find? k

/-! ## `reflect.DeepEqual` -/

mutual
/-- Modelled from the spec: `reflect.deepValueEqual` is Go standard-library code and is not
under src/.  The spec (section 4.1) describes it as recursive comparison of composite
values element by element and key by key, with differently typed values unequal, two nulls
in nested positions equal and scalars compared by value; the arms below follow that and
the rules documented for `reflect.DeepEqual`: function values are equal only when both are
nil, pointers when they are the same pointer or point to deeply equal values, slices and
maps when both are nil or both non-nil with the same length and either the same
underlying object or deeply equal contents. -/
def deepValueEqual : Value → Value → Bool
  | .nil, .nil => true
  | .scalar a, .scalar b => a.goEq b
  | .func s1 c1, .func s2 c2 => s1 == s2 && c1.isNone && c2.isNone
  | .nilPtr t1, .nilPtr t2 => t1 == t2
  | .ptr t1 a1 x, .ptr t2 a2 y => t1 == t2 && (a1 == a2 || deepValueEqual x y)
  | .nilSlice t1, .nilSlice t2 => t1 == t2
  | .slice t1 b1 xs, .slice t2 b2 ys =>
      t1 == t2 && xs.length == ys.length && (b1 == b2 || deepList xs ys)
  | .nilMap k1 e1, .nilMap k2 e2 => k1 == k2 && e1 == e2
  | .map k1 e1 i1 m1, .map k2 e2 i2 m2 =>
      k1 == k2 && e1 == e2 && m1.length == m2.length && (i1 == i2 || deepEntries m1 m2)
  | .struct n1 f1, .struct n2 f2 => n1 == n2 && deepList f1 f2
  | _, _ => false
termination_by structural x => x
/-- Element-wise (or field-wise) deep equality of two sequences of the same length. -/
def deepList : Values → Values → Bool
  | .nil, .nil => true
  | .cons x xs, .cons y ys => deepValueEqual x y && deepList xs ys
  | _, _ => false
termination_by structural x => x
/-- The map loop of `deepValueEqual`: every key of the first map must be present in the
second with a deeply equal value.  A key of a Go map occurs once in it, so the value the
first map holds under the key is the entry's own. -/
def deepEntries : Entries → Entries → Bool
  | .nil, _ => true
  | .cons k x rest, m2 =>
      (match m2.find? k with
       | some y => deepValueEqual x y
       | none => false) && deepEntries rest m2
termination_by structural x => x
end

/-- Modelled from the spec: `reflect.DeepEqual` (Go standard library, not under src/).  If
either argument is the nil interface the result is `x == y`, which then holds only when
both are nil; values of distinct types are never deeply equal; otherwise the values are
compared by `deepValueEqual`.  As the documentation of the function says, a value can be
unequal to itself (a function, a NaN, or a struct or interface holding one), while a
pointer, a slice or a map is always deeply equal to itself, whatever it holds. -/
def DeepEqual (x y : Value) : Bool :=
  if x.isNil || y.isNil then x.isNil && y.isNil
  else if x.typeOf != y.typeOf then false
  else deepValueEqual x y

/-! ## `fmt.Sprintf` and the external printers -/

/-- Expansion of a format string whose only verb is `%s`, every operand being a string:
each `%s` is replaced by the next operand, every other character is copied. -/
def Sprintf.expand : List Char → List String → List Char
  | [], _ => []
  | '%' :: 's' :: rest, a :: args => a.toList ++ Sprintf.expand rest args
  | '%' :: 's' :: rest, [] => "%!s(MISSING)".toList ++ Sprintf.expand rest []
  | c :: rest, args => c :: Sprintf.expand rest args

/-- A model of `fmt.Sprintf` for `%s` verbs with string operands. -/
def Sprintf (format : String) (args : List String) : String :=
  String.mk (Sprintf.expand format.toList args)

/-- What the matcher takes from outside the values, as parameters: gomega's
`format.Object(value, indentation)`, the renderings `pretty.Diff` puts in its lines (a
value, a type, a map key), and the declarations of the struct types (the name and the
declared type of the i-th field). -/
structure Printer where
  Object : Value → Nat → String
  value : Value → String
  type : Option GoType → String
  key : Scalar → String
  field : String → Nat → String
  fieldType : String → Nat → GoType

/-! ## `pretty.Diff` -/

/-- A diff line: the text, prefixed by the path label when there is one. -/
def diffLine (l body : String) : String :=
  if l == "" then body else l ++ ": " ++ body

/-- Extension of a path label by a field name or a bracketed index or key. -/
def relabel (l name : String) : String :=
  if l != "" && !name.startsWith "[" then l ++ "." ++ name else l ++ name

/-- The line reported for two values that differ at the current path: `nil` and the other
value when one of them is the nil interface, their types when these differ, the two values
otherwise. -/
def mismatch (P : Printer) (l : String) (a b : Value) : String :=
  if a.isNil then diffLine l ("nil != " ++ P.value b)
  else if b.isNil then diffLine l (P.value a ++ " != nil")
  else if a.typeOf != b.typeOf then diffLine l (P.type a.typeOf ++ " != " ++ P.type b.typeOf)
  else diffLine l (P.value a ++ " != " ++ P.value b)

/-- One line for every key of `m1` that `m2` does not have. -/
def onlyLeft (P : Printer) (l : String) : Entries → Entries → List String
  | .nil, _ => []
  | .cons k x rest, m2 =>
      (match m2.find? k with
       | some _ => []
       | none => [diffLine (relabel l ("[" ++ P.key k ++ "]")) (P.value x ++ " != (missing)")])
      ++ onlyLeft P l rest m2

/-- One line for every key of `m2` that `m1` does not have. -/
def onlyRight (P : Printer) (l : String) (m1 : Entries) : Entries → List String
  | .nil => []
  | .cons k y rest =>
      (match m1.find? k with
       | some _ => []
       | none => [diffLine (relabel l ("[" ++ P.key k ++ "]")) ("(missing) != " ++ P.value y)])
      ++ onlyRight P l m1 rest

mutual
/-- The lines of the parallel walk of two values when no bookkeeping is done: one line per
differing field, element or path.  Scalars differ when Go's `!=` holds of them, functions
and nil-ness by identity; pointers are followed, slices of one length and structs are
walked position by position, maps key by key.  `diffValue` below, the model of the
library routine, produces these lines as long as it meets no location twice. -/
def plainValue (P : Printer) (l : String) : Value → Value → List String
  | .nil, .nil => []
  | .scalar x, .scalar y => if x.goEq y then [] else [mismatch P l (.scalar x) (.scalar y)]
  | .func s1 c1, .func s2 c2 =>
      if s1 == s2 && c1 == c2 then [] else [mismatch P l (.func s1 c1) (.func s2 c2)]
  | .nilPtr t1, .nilPtr t2 => if t1 == t2 then [] else [mismatch P l (.nilPtr t1) (.nilPtr t2)]
  | .ptr t1 a1 x, .ptr t2 a2 y =>
      if t1 == t2 then plainValue P l x y else [mismatch P l (.ptr t1 a1 x) (.ptr t2 a2 y)]
  | .nilSlice t1, .nilSlice t2 =>
      if t1 == t2 then [] else [mismatch P l (.nilSlice t1) (.nilSlice t2)]
  | .nilSlice t1, .slice t2 b2 ys =>
      if t1 == t2 && ys.length == 0 then [] else [mismatch P l (.nilSlice t1) (.slice t2 b2 ys)]
  | .slice t1 b1 xs, .nilSlice t2 =>
      if t1 == t2 && xs.length == 0 then [] else [mismatch P l (.slice t1 b1 xs) (.nilSlice t2)]
  | .slice t1 b1 xs, .slice t2 b2 ys =>
      if t1 == t2 then
        if xs.length == ys.length then plainList P l (fun i => "[" ++ toString i ++ "]") 0 xs ys
        else [diffLine l (P.type (some (.slice t1)) ++ "[" ++ toString xs.length ++ "] != "
                ++ P.type (some (.slice t2)) ++ "[" ++ toString ys.length ++ "]")]
      else [mismatch P l (.slice t1 b1 xs) (.slice t2 b2 ys)]
  | .nilMap k1 e1, .nilMap k2 e2 =>
      if k1 == k2 && e1 == e2 then [] else [mismatch P l (.nilMap k1 e1) (.nilMap k2 e2)]
  | .nilMap k1 e1, .map k2 e2 i2 m2 =>
      if k1 == k2 && e1 == e2 then onlyRight P l .nil m2
      else [mismatch P l (.nilMap k1 e1) (.map k2 e2 i2 m2)]
  | .map k1 e1 i1 m1, .nilMap k2 e2 =>
      if k1 == k2 && e1 == e2 then onlyLeft P l m1 .nil
      else [mismatch P l (.map k1 e1 i1 m1) (.nilMap k2 e2)]
  | .map k1 e1 i1 m1, .map k2 e2 i2 m2 =>
      if k1 == k2 && e1 == e2 then
        onlyLeft P l m1 m2 ++ plainEntries P l m1 m2 ++ onlyRight P l m1 m2
      else [mismatch P l (.map k1 e1 i1 m1) (.map k2 e2 i2 m2)]
  | .struct n1 f1, .struct n2 f2 =>
      if n1 == n2 then plainList P l (P.field n1) 0 f1 f2
      else [mismatch P l (.struct n1 f1) (.struct n2 f2)]
  | a, b => [mismatch P l a b]
termination_by structural x => x
/-- The lines of two sequences walked position by position, the i-th pair under the label
`lab i`. -/
def plainList (P : Printer) (l : String) (lab : Nat → String) (i : Nat) :
    Values → Values → List String
  | .cons x xs, .cons y ys =>
      plainValue P (relabel l (lab i)) x y ++ plainList P l lab (i + 1) xs ys
  | _, _ => []
termination_by structural x => x
/-- The lines of the keys two maps share: the values under each such key are compared. -/
def plainEntries (P : Printer) (l : String) : Entries → Entries → List String
  | .nil, _ => []
  | .cons k x rest, m2 =>
      (match m2.find? k with
       | some y => plainValue P (relabel l ("[" ++ P.key k ++ "]")) x y
       | none => []) ++ plainEntries P l rest m2
termination_by structural x => x
end

/-- The location of an addressable value: a memory cell (the target of a pointer, or
an element of the backing array of a slice, the i-th element of a slice with base `b`
being the cell `b + i`), or a field of a struct that lies at a location. -/
inductive Loc where
  | cell (addr : Nat)
  | field (parent : Loc) (index : Nat)
  deriving DecidableEq, Repr

/-- The bookkeeping of the diff: for every addressable value met on the left the one it
was compared with on the right, and the other way round (the maps `aVisited` and
`bVisited`, an entry at the front overriding the ones behind it). -/
structure Visited where
  aVisited : List ((Loc × GoType) × (Loc × GoType))
  bVisited : List ((Loc × GoType) × (Loc × GoType))

/-- The state after two addressable values have been recorded as compared with each
other; when one of the two is not addressable nothing is recorded. -/
def Visited.record (st : Visited) (la lb : Option Loc) (ty : GoType) : Visited :=
  match la, lb with
  | some x, some y => ⟨((x, ty), (y, ty)) :: st.aVisited, ((y, ty), (x, ty)) :: st.bVisited⟩
  | _, _ => st

/-- The block of the diff that runs when both values are addressable: whether one of them
was met before (then the walk does not go into them again), the line reported when the
left one was met before with another partner, or the right one was and the left one was
not, and the state with the pair recorded. -/
def enter (P : Printer) (l : String) (st : Visited) (la lb : Option Loc) (ty : GoType)
    (a b : Value) : Bool × List String × Visited :=
  match la, lb with
  | some x, some y =>
      match st.aVisited.lookup (x, ty) with
      | some vis =>
          (true,
           if vis != (y, ty) then
             [diffLine l (P.value a ++ " (previously visited) != " ++ P.value b)]
           else [],
           st.record la lb ty)
      | none =>
          if (st.bVisited.lookup (y, ty)).isSome then
            (true, [diffLine l (P.value a ++ " != " ++ P.value b ++ " (previously visited)")],
             st.record la lb ty)
          else (false, [], st.record la lb ty)
  | _, _ => (false, [], st)

/-- The part of the library routine `diff` that runs before its switch on the kind of the
two values, `walk` being that switch.  For a slot of interface type the slot is first
entered in the record and the values in it, not addressable, are then compared: one line
when only one of them is nil or when their dynamic types differ.  For any other slot the
types are compared and the values entered in the record.  A value met before is not
walked again. -/
def guarded (P : Printer) (l : String) (st : Visited) (la lb : Option Loc) (iface : Bool)
    (a b : Value) (walk : Visited → List String × Visited) : List String × Visited :=
  let e1 := if iface then enter P l st la lb .iface a b else (false, [], st)
  if e1.1 then (e1.2.1, e1.2.2)
  else if a.isNil || b.isNil then
    (if a.isNil && b.isNil then [] else [mismatch P l a b], e1.2.2)
  else if a.typeOf != b.typeOf then ([mismatch P l a b], e1.2.2)
  else
    let e2 :=
      if iface then (false, [], e1.2.2)
      else enter P l e1.2.2 la lb (a.typeOf.getD .iface) a b
    if e2.1 then (e2.2.1, e2.2.2) else walk e2.2.2

mutual
/-- Modelled from the spec: `pretty.Diff` belongs to github.com/kr/pretty and is not under
src/.  The spec (section 4.1, "Diff computation") describes a routine that walks both
values in parallel and emits one line per differing field, element or path, each line
naming the path and the two differing values, and no line when nothing differs.  The
library routine also keeps a record of the addressable values it has compared, reports a
value met again with another partner and does not walk into a value met again; the model
follows it (`guarded`).  `la` and `lb` are the locations of the two values when they are
addressable, `iface` says that the slot holding them has an interface type.  Scalars
differ when Go's `!=` holds of them, functions and nil-ness by identity; pointers are
followed, slices of one length and structs are walked position by position, maps key by
key. -/
def diffValue (P : Printer) (l : String) (st : Visited) (la lb : Option Loc) (iface : Bool) :
    Value → Value → List String × Visited
  | .scalar x, .scalar y =>
      guarded P l st la lb iface (.scalar x) (.scalar y) fun s =>
        (if x.goEq y then [] else [mismatch P l (.scalar x) (.scalar y)], s)
  | .func s1 c1, .func s2 c2 =>
      guarded P l st la lb iface (.func s1 c1) (.func s2 c2) fun s =>
        (if c1 == c2 then [] else [mismatch P l (.func s1 c1) (.func s2 c2)], s)
  | .nilPtr t1, .nilPtr t2 =>
      guarded P l st la lb iface (.nilPtr t1) (.nilPtr t2) fun s => ([], s)
  | .ptr t1 a1 x, .ptr t2 a2 y =>
      guarded P l st la lb iface (.ptr t1 a1 x) (.ptr t2 a2 y) fun s =>
        diffValue P l s (some (.cell a1)) (some (.cell a2)) (t1 == .iface) x y
  | .nilSlice t1, .nilSlice t2 =>
      guarded P l st la lb iface (.nilSlice t1) (.nilSlice t2) fun s => ([], s)
  | .nilSlice t1, .slice t2 b2 ys =>
      guarded P l st la lb iface (.nilSlice t1) (.slice t2 b2 ys) fun s =>
        (if ys.length == 0 then [] else [mismatch P l (.nilSlice t1) (.slice t2 b2 ys)], s)
  | .slice t1 b1 xs, .nilSlice t2 =>
      guarded P l st la lb iface (.slice t1 b1 xs) (.nilSlice t2) fun s =>
        (if xs.length == 0 then [] else [mismatch P l (.slice t1 b1 xs) (.nilSlice t2)], s)
  | .slice t1 b1 xs, .slice t2 b2 ys =>
      guarded P l st la lb iface (.slice t1 b1 xs) (.slice t2 b2 ys) fun s =>
        if xs.length == ys.length then
          diffElems P l s b1 b2 (t1 == .iface) 0 xs ys
        else
          ([diffLine l (P.type (some (.slice t1)) ++ "[" ++ toString xs.length ++ "] != "
              ++ P.type (some (.slice t2)) ++ "[" ++ toString ys.length ++ "]")], s)
  | .nilMap k1 e1, .nilMap k2 e2 =>
      guarded P l st la lb iface (.nilMap k1 e1) (.nilMap k2 e2) fun s => ([], s)
  | .nilMap k1 e1, .map k2 e2 i2 m2 =>
      guarded P l st la lb iface (.nilMap k1 e1) (.map k2 e2 i2 m2) fun s =>
        (onlyRight P l .nil m2, s)
  | .map k1 e1 i1 m1, .nilMap k2 e2 =>
      guarded P l st la lb iface (.map k1 e1 i1 m1) (.nilMap k2 e2) fun s =>
        (onlyLeft P l m1 .nil, s)
  | .map k1 e1 i1 m1, .map k2 e2 i2 m2 =>
      guarded P l st la lb iface (.map k1 e1 i1 m1) (.map k2 e2 i2 m2) fun s =>
        ((onlyLeft P l m1 m2 ++ (diffEntries P l s (e1 == .iface) m1 m2).1)
          ++ onlyRight P l m1 m2,
         (diffEntries P l s (e1 == .iface) m1 m2).2)
  | .struct n1 f1, .struct n2 f2 =>
      guarded P l st la lb iface (.struct n1 f1) (.struct n2 f2) fun s =>
        diffFields P l s n1 (if iface then none else la) (if iface then none else lb) 0 f1 f2
  | a, b => guarded P l st la lb iface a b fun s => ([mismatch P l a b], s)
termination_by structural x => x
/-- The elements of two slices of one length, the i-th pair under the label `[i]`; the
elements lie in the cells from `b1` and from `b2` on. -/
def diffElems (P : Printer) (l : String) (st : Visited) (b1 b2 : Nat) (iface : Bool)
    (i : Nat) : Values → Values → List String × Visited
  | .cons x xs, .cons y ys =>
      ((diffValue P (relabel l ("[" ++ toString i ++ "]")) st (some (.cell b1))
          (some (.cell b2)) iface x y).1
        ++ (diffElems P l
            (diffValue P (relabel l ("[" ++ toString i ++ "]")) st (some (.cell b1))
              (some (.cell b2)) iface x y).2
            (b1 + 1) (b2 + 1) iface (i + 1) xs ys).1,
       (diffElems P l
            (diffValue P (relabel l ("[" ++ toString i ++ "]")) st (some (.cell b1))
              (some (.cell b2)) iface x y).2
            (b1 + 1) (b2 + 1) iface (i + 1) xs ys).2)
  | _, _ => ([], st)
termination_by structural x => x
/-- The fields of two structs of the type `n`, the j-th pair under the name of the field;
the fields are addressable when the structs are. -/
def diffFields (P : Printer) (l : String) (st : Visited) (n : String) (pa pb : Option Loc)
    (j : Nat) : Values → Values → List String × Visited
  | .cons x xs, .cons y ys =>
      ((diffValue P (relabel l (P.field n j)) st (pa.map (Loc.field · j))
          (pb.map (Loc.field · j)) (P.fieldType n j == .iface) x y).1
        ++ (diffFields P l
            (diffValue P (relabel l (P.field n j)) st (pa.map (Loc.field · j))
              (pb.map (Loc.field · j)) (P.fieldType n j == .iface) x y).2
            n pa pb (j + 1) xs ys).1,
       (diffFields P l
            (diffValue P (relabel l (P.field n j)) st (pa.map (Loc.field · j))
              (pb.map (Loc.field · j)) (P.fieldType n j == .iface) x y).2
            n pa pb (j + 1) xs ys).2)
  | _, _ => ([], st)
termination_by structural x => x
/-- The keys two maps share: the values under each such key are compared; they are not
addressable. -/
def diffEntries (P : Printer) (l : String) (st : Visited) (iface : Bool) :
    Entries → Entries → List String × Visited
  | .nil, _ => ([], st)
  | .cons k x rest, m2 =>
      match m2.find? k with
      | some y =>
          ((diffValue P (relabel l ("[" ++ P.key k ++ "]")) st none none iface x y).1
            ++ (diffEntries P l
                (diffValue P (relabel l ("[" ++ P.key k ++ "]")) st none none iface x y).2
                iface rest m2).1,
           (diffEntries P l
                (diffValue P (relabel l ("[" ++ P.key k ++ "]")) st none none iface x y).2
                iface rest m2).2)
      | none => diffEntries P l st iface rest m2
termination_by structural x => x
end

/-- The structural diff `pretty.Diff(a, b)`: the lines of `diffValue` from the empty path
and the empty record.  The two arguments are the dynamic values of two `interface{}`
parameters and are not addressable. -/
def Diff (P : Printer) (a b : Value) : List String :=
  (diffValue P "" ⟨[], []⟩ none none true a b).1

mutual
/-- The locations the walk of a value can meet: its own when it is addressable, and those
of the values inside it. -/
def Value.locs (P : Printer) (la : Option Loc) (iface : Bool) : Value → List Loc
  | .ptr t addr x => la.toList ++ x.locs P (some (.cell addr)) (t == .iface)
  | .slice t base xs => la.toList ++ xs.locsElems P base (t == .iface)
  | .map _ e _ m => la.toList ++ m.locsVals P (e == .iface)
  | .struct n fs => la.toList ++ fs.locsFields P n (if iface then none else la) 0
  | _ => la.toList
termination_by structural x => x
/-- The locations met in the elements of a slice whose backing array starts at `base`. -/
def Values.locsElems (P : Printer) (base : Nat) (iface : Bool) : Values → List Loc
  | .nil => []
  | .cons x xs => x.locs P (some (.cell base)) iface ++ xs.locsElems P (base + 1) iface
termination_by structural x => x
/-- The locations met in the fields of a struct of type `n` from the j-th on. -/
def Values.locsFields (P : Printer) (n : String) (parent : Option Loc) (j : Nat) :
    Values → List Loc
  | .nil => []
  | .cons x xs =>
      x.locs P (parent.map (Loc.field · j)) (P.fieldType n j == .iface)
        ++ xs.locsFields P n parent (j + 1)
termination_by structural x => x
/-- The locations met in the values of a map. -/
def Entries.locsVals (P : Printer) (iface : Bool) : Entries → List Loc
  | .nil => []
  | .cons _ v rest => v.locs P none iface ++ rest.locsVals P iface
termination_by structural x => x
end

/-- No addressable value is reached twice in the value: the locations its walk can meet
are pairwise different. -/
def Value.unshared (P : Printer) (v : Value) : Bool :=
  decide (v.locs P none true).Nodup

/-- The locations recorded as met on the left. -/
def Visited.aLocs (st : Visited) : List Loc :=
  st.aVisited.map (fun p => p.1.1)

/-- The locations recorded as met on the right. -/
def Visited.bLocs (st : Visited) : List Loc :=
  st.bVisited.map (fun p => p.1.1)

/-- The record `st2` holds, beside what `st` holds, only locations of `A` on the left and
of `B` on the right. -/
def Visited.within (st2 st : Visited) (A B : List Loc) : Prop :=
  (∀ x ∈ st2.aLocs, x ∈ st.aLocs ∨ x ∈ A) ∧ (∀ y ∈ st2.bLocs, y ∈ st.bLocs ∨ y ∈ B)

/-- The locations met in the values that the map `m2` holds under the keys of the
entries. -/
def Entries.partnerLocs (P : Printer) (iface : Bool) : Entries → Entries → List Loc
  | .nil, _ => []
  | .cons k _ rest, m2 =>
      (match m2.find? k with
       | some y => y.locs P none iface
       | none => []) ++ rest.partnerLocs P iface m2

/-! ## The matcher (`diff_equals.go`) -/

/-- The matcher: it holds the expected value. -/
structure DiffEqualMatcher where
  Expected : Value

/-- The constructor `DiffEqual(expected)`. -/
def DiffEqual (expected : Value) : DiffEqualMatcher :=
  ⟨expected⟩

/-- The text of the error `Match` returns when both sides are nil. -/
def refusal : String :=
  "Refusing to compare <nil> to <nil>.\nBe explicit and use BeNil() instead.  This is to avoid mistakes where both sides of an assertion are erroneously uninitialized."

/-- The method `Match`: the verdict and the error (`none` is Go's nil error). -/
def DiffEqualMatcher.Match (m : DiffEqualMatcher) (actual : Value) : Bool × Option String :=
  if actual.isNil && m.Expected.isNil then
    (false, some refusal)
  else
    (DeepEqual actual m.Expected, none)

/-- The method `message`. -/
def DiffEqualMatcher.message (P : Printer) (m : DiffEqualMatcher) (actual : Value)
    (equalityStr : String) : String :=
  let diffs := Diff P actual m.Expected
  Sprintf "Expected\n%s\n%s\n%s\n%s\n%s"
    [P.Object actual 1,
     equalityStr,
     P.Object m.Expected 1,
     "with diff",
     P.Object (.scalar (.string "string" (String.intercalate "\n" diffs))) 1]

/-- The method `FailureMessage`. -/
def DiffEqualMatcher.FailureMessage (P : Printer) (m : DiffEqualMatcher) (actual : Value) :
    String :=
  m.message P actual "to equal"

/-- The method `NegatedFailureMessage`. -/
def DiffEqualMatcher.NegatedFailureMessage (P : Printer) (m : DiffEqualMatcher)
    (actual : Value) : String :=
  m.message P actual "not to equal"

/-! ## Predicates on values -/

deriving instance DecidableEq for Value, Values, Entries

/-- No two keys of the map are equal under `==`. -/
def Entries.distinct : Entries → Bool
  | .nil => true
  | .cons k _ rest => (rest.find? k).isNone && rest.distinct

mutual
/-- The tree denotes a Go value: in every map inside it the keys are pairwise distinct. -/
def Value.wf : Value → Bool
  | .ptr _ _ x => x.wf
  | .slice _ _ xs => xs.wf
  | .map _ _ _ m => m.distinct && m.wf
  | .struct _ fs => fs.wf
  | _ => true
termination_by structural x => x
/-- Every element is well formed. -/
def Values.wf : Values → Bool
  | .nil => true
  | .cons x xs => x.wf && xs.wf
termination_by structural x => x
/-- Every stored value is well formed. -/
def Entries.wf : Entries → Bool
  | .nil => true
  | .cons _ v rest => v.wf && rest.wf
termination_by structural x => x
end

mutual
/-- Whether some node of the tree satisfies `q`, or some map key satisfies `qk`. -/
def Value.any (q : Value → Bool) (qk : Scalar → Bool) : Value → Bool
  | .ptr t a x => q (.ptr t a x) || x.any q qk
  | .slice t b xs => q (.slice t b xs) || xs.any q qk
  | .map k e i m => q (.map k e i m) || m.any q qk
  | .struct n fs => q (.struct n fs) || fs.any q qk
  | v => q v
termination_by structural x => x
/-- Whether some element has a node or key as sought. -/
def Values.any (q : Value → Bool) (qk : Scalar → Bool) : Values → Bool
  | .nil => false
  | .cons x xs => x.any q qk || xs.any q qk
termination_by structural x => x
/-- Whether some entry has a key, or a value with a node or key, as sought. -/
def Entries.any (q : Value → Bool) (qk : Scalar → Bool) : Entries → Bool
  | .nil => false
  | .cons k v rest => qk k || v.any q qk || rest.any q qk
termination_by structural x => x
end

/-- The node is a floating-point NaN. -/
def Value.isNaNNode : Value → Bool
  | .scalar s => s.isNaN
  | _ => false

/-- The node is a non-nil function value. -/
def Value.isFuncNode : Value → Bool
  | .func _ (some _) => true
  | _ => false

/-- The node is a null: the nil interface, or a nil pointer, slice, map or function. -/
def Value.isNullNode : Value → Bool
  | .nil => true
  | .nilPtr _ => true
  | .nilSlice _ => true
  | .nilMap _ _ => true
  | .func _ none => true
  | _ => false

/-- The value holds a floating-point NaN somewhere, map keys included. -/
def Value.hasNaN (v : Value) : Bool :=
  v.any Value.isNaNNode Scalar.isNaN

/-- The value holds a non-nil function somewhere. -/
def Value.hasFunc (v : Value) : Bool :=
  v.any Value.isFuncNode (fun _ => false)

/-- The value holds a null somewhere. -/
def Value.hasNull (v : Value) : Bool :=
  v.any Value.isNullNode (fun _ => false)

/-- The value is a sequence, a mapping or a record. -/
def Value.isComposite : Value → Bool
  | .slice _ _ _ => true
  | .map _ _ _ _ => true
  | .struct _ _ => true
  | _ => false

mutual
/-- A copy of the value with the same structure, its pointers, slices and maps referring
to objects at the addresses `f` assigns. -/
def Value.relocate (f : Nat → Nat) : Value → Value
  | .ptr t a x => .ptr t (f a) (x.relocate f)
  | .slice t b xs => .slice t (f b) (xs.relocate f)
  | .map k e i m => .map k e (f i) (m.relocate f)
  | .struct n fs => .struct n (fs.relocate f)
  | v => v
termination_by structural x => x
/-- Element-wise copy. -/
def Values.relocate (f : Nat → Nat) : Values → Values
  | .nil => .nil
  | .cons x xs => .cons (x.relocate f) (xs.relocate f)
termination_by structural x => x
/-- Entry-wise copy; the keys are scalars and stay as they are. -/
def Entries.relocate (f : Nat → Nat) : Entries → Entries
  | .nil => .nil
  | .cons k v rest => .cons k (v.relocate f) (rest.relocate f)
termination_by structural x => x
end

mutual
/-- One address, one object: wherever the parallel walk of the two values meets two
pointers, slices or maps that refer to the same address, they refer to the same
contents. -/
def coherent : Value → Value → Bool
  | .ptr t1 a1 x, .ptr t2 a2 y =>
      (!(t1 == t2 && a1 == a2) || decide (x = y)) && coherent x y
  | .slice t1 b1 xs, .slice t2 b2 ys =>
      (!(t1 == t2 && b1 == b2 && xs.length == ys.length) || decide (xs = ys))
        && coherentList xs ys
  | .map _ _ i1 m1, .map _ _ i2 m2 =>
      (!(i1 == i2) || decide (m1 = m2)) && coherentEntries m1 m2
  | .struct _ f1, .struct _ f2 => coherentList f1 f2
  | _, _ => true
termination_by structural x => x
/-- Coherence of two sequences, position by position. -/
def coherentList : Values → Values → Bool
  | .cons x xs, .cons y ys => coherent x y && coherentList xs ys
  | _, _ => true
termination_by structural x => x
/-- Coherence of two maps, over the keys they share. -/
def coherentEntries : Entries → Entries → Bool
  | .nil, _ => true
  | .cons k x rest, m2 =>
      (match m2.find? k with
       | some y => coherent x y
       | none => true) && coherentEntries rest m2
termination_by structural x => x
end

/-- On `a`, against any value and from any record that holds none of the locations of the
two, `diffValue` reports the lines of the plain walk and records only locations of the
two, provided that neither value reaches a location twice. -/
def Value.walksPlainly (P : Printer) (a : Value) : Prop :=
  a.wf = true →
  ∀ (b : Value) (l : String) (st : Visited) (la lb : Option Loc) (iface : Bool),
    (a.locs P la iface).Nodup → (∀ x ∈ a.locs P la iface, x ∉ st.aLocs) →
    (b.locs P lb iface).Nodup → (∀ y ∈ b.locs P lb iface, y ∉ st.bLocs) →
    (diffValue P l st la lb iface a b).1 = plainValue P l a b ∧
    (diffValue P l st la lb iface a b).2.within st (a.locs P la iface) (b.locs P lb iface)

/-! ## Sample values -/

/-- A printer that renders everything as the empty text.  Which lines a diff has does not
depend on the printer, only what they say. -/
def Printer.blank : Printer :=
  ⟨fun _ _ => "", fun _ => "", fun _ => "", fun _ => "", fun _ _ => "", fun _ _ => .iface⟩

/-- The bit pattern of a quiet NaN. -/
def nanBits : Nat := 0x7FF8000000000000

/-- A pointer to a float64 variable holding NaN. -/
def nanPointer : Value :=
  .ptr (.named "float64") 1 (.scalar (.float "float64" nanBits))

/-- A `[]*int` whose two elements are one pointer, to a variable holding 1. -/
def twiceOne : Value :=
  .slice (.ptr (.named "int")) 10
    (.cons (.ptr (.named "int") 1 (.scalar (.int "int" 1)))
      (.cons (.ptr (.named "int") 1 (.scalar (.int "int" 1))) .nil))

/-- A `[]*int` whose two elements point to two variables holding 1. -/
def twoOnes : Value :=
  .slice (.ptr (.named "int")) 20
    (.cons (.ptr (.named "int") 2 (.scalar (.int "int" 1)))
      (.cons (.ptr (.named "int") 3 (.scalar (.int "int" 1))) .nil))

/-- A non-nil function value. -/
def someFunc : Value :=
  .func "func()" (some 1)

/-- A `[]interface{}` holding a nil and a non-nil function. -/
def nilAndFunc : Value :=
  .slice .iface 1 (.cons .nil (.cons someFunc .nil))

/-- A `[]interface{}` holding a nil and a NaN. -/
def nilAndNaN : Value :=
  .slice .iface 1 (.cons .nil (.cons (.scalar (.float "float64" nanBits)) .nil))

/-- A record with a scalar field, a sequence holding a nil interface, a text and a nil
pointer, and a mapping from texts to pointers. -/
def sampleRecord : Value :=
  .struct "main.Record"
    (.cons (.scalar (.int "int" 1))
      (.cons (.slice .iface 10
          (.cons .nil (.cons (.scalar (.string "string" "a")) (.cons (.nilPtr (.named "int")) .nil))))
        (.cons (.map (.named "string") (.ptr (.named "int")) 20
            (.cons (.string "string" "k") (.ptr (.named "int") 30 (.scalar (.int "int" 7)))
              (.cons (.string "string" "z") (.nilPtr (.named "int")) .nil)))
          .nil)))

/-- A mapping with the keys `a` and `b`. -/
def mapAB : Value :=
  .map (.named "string") .iface 1
    (.cons (.string "string" "a") (.scalar (.int "int" 1))
      (.cons (.string "string" "b") .nil .nil))

/-- A mapping with the same entries as `mapAB`, another map object, the keys met the other
way round. -/
def mapBA : Value :=
  .map (.named "string") .iface 2
    (.cons (.string "string" "b") .nil
      (.cons (.string "string" "a") (.scalar (.int "int" 1)) .nil))

/-! ## Structural induction on values -/

mutual
/-- Induction on a value, with the hypothesis available for every element, field and
stored value of a composite. -/
theorem Value.induct {P : Value → Prop}
    (h_nil : P .nil)
    (h_scalar : ∀ s, P (.scalar s))
    (h_func : ∀ sig c, P (.func sig c))
    (h_nilPtr : ∀ t, P (.nilPtr t))
    (h_ptr : ∀ t a x, P x → P (.ptr t a x))
    (h_nilSlice : ∀ t, P (.nilSlice t))
    (h_slice : ∀ t b xs, (∀ x ∈ xs.toList, P x) → P (.slice t b xs))
    (h_nilMap : ∀ k e, P (.nilMap k e))
    (h_map : ∀ k e i m, (∀ p ∈ m.toList, P p.2) → P (.map k e i m))
    (h_struct : ∀ n fs, (∀ x ∈ fs.toList, P x) → P (.struct n fs)) :
    ∀ v : Value, P v
  | .nil => h_nil
  | .scalar s => h_scalar s
  | .func sig c => h_func sig c
  | .nilPtr t => h_nilPtr t
  | .ptr t a x => h_ptr t a x
      (Value.induct h_nil h_scalar h_func h_nilPtr h_ptr h_nilSlice h_slice h_nilMap h_map
        h_struct x)
  | .nilSlice t => h_nilSlice t
  | .slice t b xs => h_slice t b xs
      (Values.induct_elems h_nil h_scalar h_func h_nilPtr h_ptr h_nilSlice h_slice h_nilMap h_map
        h_struct xs)
  | .nilMap k e => h_nilMap k e
  | .map k e i m => h_map k e i m
      (Entries.induct_vals h_nil h_scalar h_func h_nilPtr h_ptr h_nilSlice h_slice h_nilMap h_map
        h_struct m)
  | .struct n fs => h_struct n fs
      (Values.induct_elems h_nil h_scalar h_func h_nilPtr h_ptr h_nilSlice h_slice h_nilMap h_map
        h_struct fs)
/-- The induction hypothesis for the members of a sequence. -/
theorem Values.induct_elems {P : Value → Prop}
    (h_nil : P .nil)
    (h_scalar : ∀ s, P (.scalar s))
    (h_func : ∀ sig c, P (.func sig c))
    (h_nilPtr : ∀ t, P (.nilPtr t))
    (h_ptr : ∀ t a x, P x → P (.ptr t a x))
    (h_nilSlice : ∀ t, P (.nilSlice t))
    (h_slice : ∀ t b xs, (∀ x ∈ xs.toList, P x) → P (.slice t b xs))
    (h_nilMap : ∀ k e, P (.nilMap k e))
    (h_map : ∀ k e i m, (∀ p ∈ m.toList, P p.2) → P (.map k e i m))
    (h_struct : ∀ n fs, (∀ x ∈ fs.toList, P x) → P (.struct n fs)) :
    ∀ xs : Values, ∀ x ∈ xs.toList, P x
  | .nil => by simp [Values.toList]
  | .cons y ys => by
      intro x hx
      simp only [Values.toList, List.mem_cons] at hx
      rcases hx with rfl | hx
      · exact Value.induct h_nil h_scalar h_func h_nilPtr h_ptr h_nilSlice h_slice h_nilMap
          h_map h_struct x
      · exact Values.induct_elems h_nil h_scalar h_func h_nilPtr h_ptr h_nilSlice h_slice h_nilMap
          h_map h_struct ys x hx
/-- The induction hypothesis for the values stored in a map. -/
theorem Entries.induct_vals {P : Value → Prop}
    (h_nil : P .nil)
    (h_scalar : ∀ s, P (.scalar s))
    (h_func : ∀ sig c, P (.func sig c))
    (h_nilPtr : ∀ t, P (.nilPtr t))
    (h_ptr : ∀ t a x, P x → P (.ptr t a x))
    (h_nilSlice : ∀ t, P (.nilSlice t))
    (h_slice : ∀ t b xs, (∀ x ∈ xs.toList, P x) → P (.slice t b xs))
    (h_nilMap : ∀ k e, P (.nilMap k e))
    (h_map : ∀ k e i m, (∀ p ∈ m.toList, P p.2) → P (.map k e i m))
    (h_struct : ∀ n fs, (∀ x ∈ fs.toList, P x) → P (.struct n fs)) :
    ∀ m : Entries, ∀ p ∈ m.toList, P p.2
  | .nil => by simp [Entries.toList]
  | .cons k v rest => by
      intro p hp
      simp only [Entries.toList, List.mem_cons] at hp
      rcases hp with rfl | hp
      · exact Value.induct h_nil h_scalar h_func h_nilPtr h_ptr h_nilSlice h_slice h_nilMap
          h_map h_struct v
      · exact Entries.induct_vals h_nil h_scalar h_func h_nilPtr h_ptr h_nilSlice h_slice h_nilMap
          h_map h_struct rest p hp
end


/-! ## Scalars -/

theorem floatEq_symm (a b : Nat) : floatEq a b = floatEq b a := by
  unfold floatEq
  rw [Bool.eq_iff_iff]
  simp only [Bool.and_eq_true, Bool.not_eq_true', Bool.or_eq_true, beq_iff_eq]
  constructor <;> rintro ⟨⟨h1, h2⟩, h3⟩ <;> refine ⟨⟨h2, h1⟩, ?_⟩ <;> omega

theorem floatEq_trans {a b c : Nat} (h1 : floatEq a b = true) (h2 : floatEq b c = true) :
    floatEq a c = true := by
  unfold floatEq at *
  simp only [Bool.and_eq_true, Bool.not_eq_true', Bool.or_eq_true, beq_iff_eq] at *
  obtain ⟨⟨ha, hb⟩, h1⟩ := h1
  obtain ⟨⟨_, hc⟩, h2⟩ := h2
  refine ⟨⟨ha, hc⟩, ?_⟩
  omega

theorem floatEq_self (a : Nat) : floatEq a a = !isNaN a := by
  unfold floatEq
  cases isNaN a <;> simp

theorem Scalar.goEq_symm_of {a b : Scalar} (h : a.goEq b = true) : b.goEq a = true := by
  cases a <;> cases b <;> simp_all [Scalar.goEq]
  rw [floatEq_symm]; exact h.2

theorem Scalar.goEq_symm (a b : Scalar) : a.goEq b = b.goEq a := by
  rw [Bool.eq_iff_iff]
  exact ⟨Scalar.goEq_symm_of, Scalar.goEq_symm_of⟩

theorem Scalar.goEq_trans {a b c : Scalar} (h1 : a.goEq b = true) (h2 : b.goEq c = true) :
    a.goEq c = true := by
  cases a <;> cases b <;> cases c <;>
    simp only [Scalar.goEq, Bool.and_eq_true, beq_iff_eq, Bool.false_eq_true] at h1 h2 ⊢ <;>
    first
      | exact ⟨h1.1.trans h2.1, h1.2.trans h2.2⟩
      | exact ⟨h1.1.trans h2.1, floatEq_trans h1.2 h2.2⟩

theorem Scalar.goEq_self (a : Scalar) : a.goEq a = !a.isNaN := by
  cases a <;> simp [Scalar.goEq, Scalar.isNaN, floatEq_self]

theorem Scalar.goEq_ty {a b : Scalar} (h : a.goEq b = true) : a.ty = b.ty := by
  cases a <;> cases b <;> simp_all [Scalar.goEq, Scalar.ty]

/-! ## Sequences and maps as lists -/

theorem Values.length_toList : ∀ xs : Values, xs.toList.length = xs.length
  | .nil => rfl
  | .cons _ xs => by simp [Values.toList, Values.length, Values.length_toList xs]

theorem Entries.toList_length_eq : ∀ m : Entries, m.toList.length = m.length
  | .nil => rfl
  | .cons _ _ m => by simp [Entries.toList, Entries.length, Entries.toList_length_eq m]

theorem Entries.find?_eq_none {k : Scalar} :
    ∀ {m : Entries}, m.find? k = none ↔ ∀ p ∈ m.toList, k.goEq p.1 = false
  | .nil => by simp [Entries.find?, Entries.toList]
  | .cons k2 v rest => by
      simp only [Entries.find?, Entries.toList, List.forall_mem_cons]
      by_cases h : k.goEq k2 = true
      · simp [h]
      · simp [h, @Entries.find?_eq_none k rest]

theorem Entries.find?_mem {k : Scalar} {v : Value} :
    ∀ {m : Entries}, m.find? k = some v → ∃ k2, (k2, v) ∈ m.toList ∧ k.goEq k2 = true
  | .nil => by simp [Entries.find?]
  | .cons k2 w rest => by
      simp only [Entries.find?, Entries.toList, List.mem_cons]
      by_cases h : k.goEq k2 = true
      · simp only [h, if_true, Option.some.injEq]
        rintro rfl
        exact ⟨k2, Or.inl rfl, h⟩
      · simp only [h]
        intro hf
        obtain ⟨k3, hm, hk⟩ := @Entries.find?_mem k v rest hf
        exact ⟨k3, Or.inr hm, hk⟩

theorem Entries.distinct_iff :
    ∀ {m : Entries}, m.distinct = true ↔
      m.toList.Pairwise (fun p q => p.1.goEq q.1 = false)
  | .nil => by simp [Entries.distinct, Entries.toList]
  | .cons k v rest => by
      simp [Entries.distinct, Entries.toList, List.pairwise_cons,
        Entries.find?_eq_none, @Entries.distinct_iff rest]

theorem Entries.mem_unique {l : List (Scalar × Value)}
    (hd : l.Pairwise (fun p q => p.1.goEq q.1 = false)) {p q : Scalar × Value}
    (hp : p ∈ l) (hq : q ∈ l) (h : p.1.goEq q.1 = true) : p = q := by
  induction l with
  | nil => simp at hp
  | cons a l ih =>
    rw [List.pairwise_cons] at hd
    rcases List.mem_cons.1 hp with hpa | hpl <;> rcases List.mem_cons.1 hq with hqa | hql
    · rw [hpa, hqa]
    · have := hd.1 q hql
      rw [← hpa, h] at this
      cases this
    · have := hd.1 p hpl
      rw [← hqa, Scalar.goEq_symm, h] at this
      cases this
    · exact ih hd.2 hpl hql

theorem Entries.find?_of_mem {m : Entries} (hd : m.distinct = true) {k k2 : Scalar} {v : Value}
    (hm : (k2, v) ∈ m.toList) (hk : k.goEq k2 = true) : m.find? k = some v := by
  cases hf : m.find? k with
  | none =>
    have := Entries.find?_eq_none.1 hf _ hm
    rw [hk] at this
    cases this
  | some w =>
    obtain ⟨k3, hm3, hk3⟩ := Entries.find?_mem hf
    have h23 : k2.goEq k3 = true := Scalar.goEq_trans (Scalar.goEq_symm_of hk) hk3
    have := Entries.mem_unique (Entries.distinct_iff.1 hd) hm hm3 h23
    simp only [Prod.mk.injEq] at this
    rw [this.2]

theorem Entries.keys_onto :
    ∀ (l1 l2 : List (Scalar × Value)),
      l1.Pairwise (fun p q => p.1.goEq q.1 = false) → l1.length = l2.length →
      (∀ p ∈ l1, ∃ q ∈ l2, p.1.goEq q.1 = true) →
      ∀ q ∈ l2, ∃ p ∈ l1, p.1.goEq q.1 = true := by
  intro l1
  induction l1 with
  | nil =>
    intro l2 _ hlen _ q hq
    have : l2 = [] := List.length_eq_zero.1 hlen.symm
    simp [this] at hq
  | cons a l1 ih =>
    intro l2 hd hlen hall q hq
    rw [List.pairwise_cons] at hd
    obtain ⟨b0, hb0, hab0⟩ := hall a (List.mem_cons_self _ _)
    obtain ⟨A, B, rfl⟩ := List.append_of_mem hb0
    have hlen2 : l1.length = (A ++ B).length := by
      simp only [List.length_cons, List.length_append] at hlen ⊢
      omega
    have hall2 : ∀ p ∈ l1, ∃ q ∈ A ++ B, p.1.goEq q.1 = true := by
      intro p hp
      obtain ⟨q2, hq2, hpq2⟩ := hall p (List.mem_cons_of_mem _ hp)
      have hne : q2 ≠ b0 := by
        rintro rfl
        have := hd.1 p hp
        rw [Scalar.goEq_trans hab0 (Scalar.goEq_symm_of hpq2)] at this
        cases this
      refine ⟨q2, ?_, hpq2⟩
      simp only [List.mem_append, List.mem_cons] at hq2 ⊢
      tauto
    by_cases hqb : q = b0
    · subst hqb
      exact ⟨a, List.mem_cons_self _ _, hab0⟩
    · have hq' : q ∈ A ++ B := by
        simp only [List.mem_append, List.mem_cons] at hq ⊢
        tauto
      obtain ⟨p, hp, hpq⟩ := ih (A ++ B) hd.2 hlen2 hall2 q hq'
      exact ⟨p, List.mem_cons_of_mem _ hp, hpq⟩

theorem Values.wf_iff : ∀ {xs : Values}, xs.wf = true ↔ ∀ x ∈ xs.toList, x.wf = true
  | .nil => by simp [Values.wf, Values.toList]
  | .cons x xs => by simp [Values.wf, Values.toList, @Values.wf_iff xs]

theorem Entries.wf_vals_iff : ∀ {m : Entries}, m.wf = true ↔ ∀ p ∈ m.toList, p.2.wf = true
  | .nil => by simp [Entries.wf, Entries.toList]
  | .cons k v m => by simp [Entries.wf, Entries.toList, @Entries.wf_vals_iff m]

theorem deepEntries_iff : ∀ (es m2 : Entries), deepEntries es m2 = true ↔
    ∀ p ∈ es.toList, ∃ y, m2.find? p.1 = some y ∧ deepValueEqual p.2 y = true
  | .nil, m2 => by simp [deepEntries, Entries.toList]
  | .cons k x rest, m2 => by
      simp only [deepEntries, Entries.toList, List.forall_mem_cons, Bool.and_eq_true,
        deepEntries_iff rest m2]
      cases m2.find? k <;> simp

theorem deepList_symm : ∀ (xs ys : Values),
    (∀ x ∈ xs.toList, ∀ y ∈ ys.toList, deepValueEqual x y = true → deepValueEqual y x = true) →
    deepList xs ys = true → deepList ys xs = true
  | .nil, .nil => by simp [deepList]
  | .nil, .cons _ _ => by simp [deepList]
  | .cons _ _, .nil => by simp [deepList]
  | .cons x xs, .cons y ys => by
      intro ih h
      simp only [deepList, Bool.and_eq_true] at h ⊢
      refine ⟨ih x (by simp [Values.toList]) y (by simp [Values.toList]) h.1, ?_⟩
      refine deepList_symm xs ys (fun a ha b hb => ih a ?_ b ?_) h.2 <;>
        simp [Values.toList, ha, hb]

theorem deepEntries_symm (m1 m2 : Entries) (hd1 : m1.distinct = true) (hd2 : m2.distinct = true)
    (hlen : m1.length = m2.length)
    (ih : ∀ p ∈ m1.toList, ∀ q ∈ m2.toList,
      deepValueEqual p.2 q.2 = true → deepValueEqual q.2 p.2 = true)
    (h : deepEntries m1 m2 = true) : deepEntries m2 m1 = true := by
  rw [deepEntries_iff] at h ⊢
  have hall : ∀ p ∈ m1.toList, ∃ q ∈ m2.toList, p.1.goEq q.1 = true := by
    intro p hp
    obtain ⟨y, hy, _⟩ := h p hp
    obtain ⟨k2, hm, hk⟩ := Entries.find?_mem hy
    exact ⟨(k2, y), hm, hk⟩
  have honto := Entries.keys_onto m1.toList m2.toList (Entries.distinct_iff.1 hd1)
    (by rw [Entries.toList_length_eq, Entries.toList_length_eq, hlen]) hall
  intro q hq
  obtain ⟨p, hp, hpq⟩ := honto q hq
  refine ⟨p.2, Entries.find?_of_mem hd1 hp (Scalar.goEq_symm_of hpq), ?_⟩
  obtain ⟨y, hy, hxy⟩ := h p hp
  have : m2.find? p.1 = some q.2 := Entries.find?_of_mem hd2 hq hpq
  rw [this] at hy
  cases hy
  exact ih p hp q hq hxy

theorem deepValueEqual_symm (a : Value) :
    ∀ b : Value, a.wf = true → b.wf = true → deepValueEqual a b = true →
      deepValueEqual b a = true := by
  induction a using Value.induct with
  | h_nil => intro b; cases b <;> simp [deepValueEqual]
  | h_scalar s =>
    intro b; cases b <;> simp [deepValueEqual, Value.wf]
    exact Scalar.goEq_symm_of
  | h_func sig c =>
    intro b; cases b <;> simp [deepValueEqual, Value.wf]
    intro h1 h2 h3; exact ⟨⟨h1.symm, h3⟩, h2⟩
  | h_nilPtr t => intro b; cases b <;> simp [deepValueEqual, Value.wf]; exact Eq.symm
  | h_ptr t a x ih =>
    intro b; cases b <;> simp [deepValueEqual, Value.wf]
    rename_i t2 a2 y
    intro hx hy ht h
    refine ⟨ht.symm, ?_⟩
    rcases h with h | h
    · exact Or.inl h.symm
    · exact Or.inr (ih y hx hy h)
  | h_nilSlice t => intro b; cases b <;> simp [deepValueEqual, Value.wf]; exact Eq.symm
  | h_slice t base xs ih =>
    intro b; cases b <;> simp [deepValueEqual, Value.wf]
    rename_i t2 b2 ys
    intro hx hy ht hlen h
    refine ⟨⟨ht.symm, hlen.symm⟩, ?_⟩
    rcases h with h | h
    · exact Or.inl h.symm
    · refine Or.inr (deepList_symm xs ys (fun x hxm y hym => ih x hxm y ?_ ?_) h)
      · exact Values.wf_iff.1 hx x hxm
      · exact Values.wf_iff.1 hy y hym
  | h_nilMap k e =>
    intro b; cases b <;> simp [deepValueEqual, Value.wf]
    intro h1 h2; exact ⟨h1.symm, h2.symm⟩
  | h_map k e i m ih =>
    intro b; cases b <;> simp [deepValueEqual, Value.wf]
    rename_i k2 e2 i2 m2
    intro hd1 hw1 hd2 hw2 hk he hlen h
    refine ⟨⟨⟨hk.symm, he.symm⟩, hlen.symm⟩, ?_⟩
    rcases h with h | h
    · exact Or.inl h.symm
    · refine Or.inr (deepEntries_symm m m2 hd1 hd2 hlen (fun p hp q hq => ih p hp q.2 ?_ ?_) h)
      · exact Entries.wf_vals_iff.1 hw1 p hp
      · exact Entries.wf_vals_iff.1 hw2 q hq
  | h_struct n fs ih =>
    intro b; cases b <;> simp [deepValueEqual, Value.wf]
    rename_i n2 gs
    intro hx hy hn h
    refine ⟨hn.symm, deepList_symm fs gs (fun x hxm y hym => ih x hxm y ?_ ?_) h⟩
    · exact Values.wf_iff.1 hx x hxm
    · exact Values.wf_iff.1 hy y hym

/-- Deeply equal values have the same dynamic type: the tags compared in the arms of
`deepValueEqual` carry out the rule that values of distinct types are never deeply
equal. -/
theorem deepValueEqual_typeOf (a b : Value) (h : deepValueEqual a b = true) :
    a.typeOf = b.typeOf := by
  cases a <;> cases b <;> simp only [deepValueEqual, Bool.false_eq_true] at h <;>
    simp only [Value.typeOf, Bool.and_eq_true, beq_iff_eq] at h ⊢
  · rw [Scalar.goEq_ty h]
  · rw [h.1.1]
  · rw [h]
  · rw [h.1]
  · rw [h]
  · rw [h.1.1]
  · rw [h.1, h.2]
  · rw [h.1.1.1, h.1.1.2]
  · rw [h.1]

/-! ## Copies -/

theorem Values.length_relocate (f : Nat → Nat) : ∀ xs : Values,
    (xs.relocate f).length = xs.length
  | .nil => rfl
  | .cons _ xs => by simp [Values.relocate, Values.length, Values.length_relocate f xs]

theorem Entries.relocate_length (f : Nat → Nat) : ∀ m : Entries,
    (m.relocate f).length = m.length
  | .nil => rfl
  | .cons _ _ m => by simp [Entries.relocate, Entries.length, Entries.relocate_length f m]

theorem Entries.find?_relocate (f : Nat → Nat) (k : Scalar) : ∀ m : Entries,
    (m.relocate f).find? k = (m.find? k).map (Value.relocate f)
  | .nil => rfl
  | .cons k2 v m => by
      simp only [Entries.relocate, Entries.find?]
      by_cases h : k.goEq k2 = true
      · simp [h]
      · simp [h, Entries.find?_relocate f k m]

theorem Value.typeOf_relocate (f : Nat → Nat) (v : Value) :
    (v.relocate f).typeOf = v.typeOf := by
  cases v <;> simp [Value.relocate, Value.typeOf]

theorem Value.isNil_relocate (f : Nat → Nat) (v : Value) :
    (v.relocate f).isNil = v.isNil := by
  cases v <;> simp [Value.relocate, Value.isNil]

theorem Values.any_eq_false (q : Value → Bool) (qk : Scalar → Bool) : ∀ xs : Values,
    xs.any q qk = false ↔ ∀ x ∈ xs.toList, x.any q qk = false
  | .nil => by simp [Values.any, Values.toList]
  | .cons x xs => by simp [Values.any, Values.toList, Values.any_eq_false q qk xs]

theorem Entries.any_vals_eq_false (q : Value → Bool) (qk : Scalar → Bool) : ∀ m : Entries,
    m.any q qk = false ↔ ∀ p ∈ m.toList, qk p.1 = false ∧ p.2.any q qk = false
  | .nil => by simp [Entries.any, Entries.toList]
  | .cons k v m => by
      simp [Entries.any, Entries.toList, Entries.any_vals_eq_false q qk m, and_assoc]

theorem deepList_relocate (f : Nat → Nat) : ∀ xs : Values,
    (∀ x ∈ xs.toList, deepValueEqual x (x.relocate f) = true) →
    deepList xs (xs.relocate f) = true
  | .nil => by simp [deepList, Values.relocate]
  | .cons x xs => by
      intro h
      simp only [Values.toList, List.forall_mem_cons] at h
      simp [deepList, Values.relocate, h.1, deepList_relocate f xs h.2]

theorem deepEntries_relocate (f : Nat → Nat) (m : Entries) (hd : m.distinct = true)
    (hk : ∀ p ∈ m.toList, p.1.isNaN = false)
    (h : ∀ p ∈ m.toList, deepValueEqual p.2 (p.2.relocate f) = true) :
    deepEntries m (m.relocate f) = true := by
  rw [deepEntries_iff]
  intro p hp
  have hself : p.1.goEq p.1 = true := by rw [Scalar.goEq_self, hk p hp]; rfl
  refine ⟨p.2.relocate f, ?_, h p hp⟩
  rw [Entries.find?_relocate, Entries.find?_of_mem hd hp hself]
  rfl

theorem deepValueEqual_relocate (f : Nat → Nat) (v : Value) :
    v.wf = true → v.hasNaN = false → v.hasFunc = false →
      deepValueEqual v (v.relocate f) = true := by
  unfold Value.hasNaN Value.hasFunc
  induction v using Value.induct with
  | h_nil => simp [deepValueEqual, Value.relocate]
  | h_scalar s =>
    simp only [deepValueEqual, Value.relocate, Value.any, Value.isNaNNode, Scalar.goEq_self]
    intro _ h _
    simp [h]
  | h_func sig c =>
    cases c <;> simp [deepValueEqual, Value.relocate, Value.any, Value.isFuncNode]
  | h_nilPtr t => simp [deepValueEqual, Value.relocate]
  | h_ptr t a x ih =>
    simp only [deepValueEqual, Value.relocate, Value.any, Value.wf, Value.isNaNNode,
      Value.isFuncNode, Bool.false_or, beq_self_eq_true, Bool.true_and, Bool.or_eq_true]
    intro h1 h2 h3
    exact Or.inr (ih h1 h2 h3)
  | h_nilSlice t => simp [deepValueEqual, Value.relocate]
  | h_slice t b xs ih =>
    simp only [deepValueEqual, Value.relocate, Value.any, Value.wf, Value.isNaNNode,
      Value.isFuncNode, Bool.false_or, beq_self_eq_true, Bool.true_and, Bool.or_eq_true,
      Values.length_relocate, Values.any_eq_false]
    intro h1 h2 h3
    exact Or.inr (deepList_relocate f xs
      (fun x hx => ih x hx (Values.wf_iff.1 h1 x hx) (h2 x hx) (h3 x hx)))
  | h_nilMap k e => simp [deepValueEqual, Value.relocate]
  | h_map k e i m ih =>
    simp only [deepValueEqual, Value.relocate, Value.any, Value.wf, Value.isNaNNode,
      Value.isFuncNode, Bool.false_or, beq_self_eq_true, Bool.true_and, Bool.or_eq_true,
      Entries.relocate_length, Entries.any_vals_eq_false, Bool.and_eq_true]
    intro h1 h2 h3
    exact Or.inr (deepEntries_relocate f m h1.1 (fun p hp => (h2 p hp).1)
      (fun p hp => ih p hp (Entries.wf_vals_iff.1 h1.2 p hp) (h2 p hp).2 (h3 p hp).2))
  | h_struct n fs ih =>
    simp only [deepValueEqual, Value.relocate, Value.any, Value.wf, Value.isNaNNode,
      Value.isFuncNode, Bool.false_or, beq_self_eq_true, Bool.true_and,
      Values.any_eq_false]
    intro h1 h2 h3
    exact deepList_relocate f fs
      (fun x hx => ih x hx (Values.wf_iff.1 h1 x hx) (h2 x hx) (h3 x hx))

theorem DeepEqual_relocate (f : Nat → Nat) (v : Value) (hw : v.wf = true)
    (hn : v.hasNaN = false) (hf : v.hasFunc = false) : DeepEqual v (v.relocate f) = true := by
  unfold DeepEqual
  cases hv : v.isNil
  · simp [Value.isNil_relocate, hv, Value.typeOf_relocate, deepValueEqual_relocate f v hw hn hf]
  · simp [Value.isNil_relocate, hv]

/-! ## The diff of deeply equal values -/

theorem onlyLeft_eq_nil (P : Printer) (l : String) (m2 : Entries) : ∀ es : Entries,
    (∀ p ∈ es.toList, ∃ y, m2.find? p.1 = some y) → onlyLeft P l es m2 = []
  | .nil => by simp [onlyLeft]
  | .cons k x rest => by
      intro h
      simp only [Entries.toList, List.forall_mem_cons] at h
      obtain ⟨y, hy⟩ := h.1
      simp [onlyLeft, hy, onlyLeft_eq_nil P l m2 rest h.2]

theorem onlyRight_eq_nil (P : Printer) (l : String) (m1 : Entries) : ∀ es : Entries,
    (∀ q ∈ es.toList, ∃ x, m1.find? q.1 = some x) → onlyRight P l m1 es = []
  | .nil => by simp [onlyRight]
  | .cons k y rest => by
      intro h
      simp only [Entries.toList, List.forall_mem_cons] at h
      obtain ⟨x, hx⟩ := h.1
      simp [onlyRight, hx, onlyRight_eq_nil P l m1 rest h.2]

theorem plainEntries_eq_nil (P : Printer) (l : String) (m2 : Entries) : ∀ es : Entries,
    (∀ p ∈ es.toList, ∀ y, m2.find? p.1 = some y → ∀ l2, plainValue P l2 p.2 y = []) →
    plainEntries P l es m2 = []
  | .nil => by simp [plainEntries]
  | .cons k x rest => by
      intro h
      simp only [Entries.toList, List.forall_mem_cons] at h
      simp only [plainEntries, plainEntries_eq_nil P l m2 rest h.2, List.append_nil]
      cases hf : m2.find? k with
      | none => rfl
      | some y => exact h.1 y hf _

theorem coherentEntries_iff (m2 : Entries) : ∀ es : Entries,
    coherentEntries es m2 = true ↔
      ∀ p ∈ es.toList, ∀ y, m2.find? p.1 = some y → coherent p.2 y = true
  | .nil => by simp [coherentEntries, Entries.toList]
  | .cons k x rest => by
      simp only [coherentEntries, Entries.toList, List.forall_mem_cons, Bool.and_eq_true,
        coherentEntries_iff m2 rest]
      cases m2.find? k <;> simp

theorem plainList_eq_nil (P : Printer) : ∀ (xs ys : Values) (l : String) (lab : Nat → String)
    (i : Nat),
    (∀ x ∈ xs.toList, ∀ y ∈ ys.toList, deepValueEqual x y = true → coherent x y = true →
      ∀ l2, plainValue P l2 x y = []) →
    deepList xs ys = true → coherentList xs ys = true → plainList P l lab i xs ys = []
  | .nil, .nil => by simp [plainList]
  | .nil, .cons _ _ => by simp [plainList]
  | .cons _ _, .nil => by simp [plainList]
  | .cons x xs, .cons y ys => by
      intro l lab i ih h hc
      simp only [deepList, coherentList, Bool.and_eq_true] at h hc
      simp only [plainList]
      rw [ih x (by simp [Values.toList]) y (by simp [Values.toList]) h.1 hc.1,
        plainList_eq_nil P xs ys l lab (i + 1) (fun a ha b hb => ih a ?_ b ?_) h.2 hc.2]
      · rfl
      · simp [Values.toList, ha]
      · simp [Values.toList, hb]

theorem plainList_self (P : Printer) : ∀ (xs : Values) (l : String) (lab : Nat → String)
    (i : Nat), (∀ x ∈ xs.toList, ∀ l2, plainValue P l2 x x = []) →
    plainList P l lab i xs xs = []
  | .nil => by simp [plainList]
  | .cons x xs => by
      intro l lab i ih
      simp only [Values.toList, List.forall_mem_cons] at ih
      simp [plainList, ih.1, plainList_self P xs l lab (i + 1) ih.2]

theorem plainValue_self (P : Printer) (v : Value) :
    v.wf = true → v.hasNaN = false → ∀ l, plainValue P l v v = [] := by
  unfold Value.hasNaN
  induction v using Value.induct with
  | h_nil => simp [plainValue]
  | h_scalar s =>
    simp only [plainValue, Value.any, Value.isNaNNode, Scalar.goEq_self]
    intro _ h _
    simp [h]
  | h_func sig c => simp [plainValue]
  | h_nilPtr t => simp [plainValue]
  | h_ptr t a x ih =>
    simp only [plainValue, Value.any, Value.wf, Value.isNaNNode, Bool.false_or,
      beq_self_eq_true, if_true]
    intro h1 h2 l
    exact ih h1 h2 l
  | h_nilSlice t => simp [plainValue]
  | h_slice t b xs ih =>
    simp only [plainValue, Value.any, Value.wf, Value.isNaNNode, Bool.false_or,
      beq_self_eq_true, if_true, Values.any_eq_false]
    intro h1 h2 l
    exact plainList_self P xs l _ 0 (fun x hx => ih x hx (Values.wf_iff.1 h1 x hx) (h2 x hx))
  | h_nilMap k e => simp [plainValue]
  | h_map k e i m ih =>
    simp only [plainValue, Value.any, Value.wf, Value.isNaNNode, Bool.false_or,
      beq_self_eq_true, if_true, Entries.any_vals_eq_false, Bool.and_eq_true, Bool.and_self]
    intro h1 h2 l
    have hfind : ∀ p ∈ m.toList, m.find? p.1 = some p.2 := by
      intro p hp
      refine Entries.find?_of_mem h1.1 hp ?_
      rw [Scalar.goEq_self, (h2 p hp).1]; rfl
    rw [onlyLeft_eq_nil P l m m (fun p hp => ⟨_, hfind p hp⟩),
      onlyRight_eq_nil P l m m (fun p hp => ⟨_, hfind p hp⟩),
      plainEntries_eq_nil P l m m ?_]
    · rfl
    · intro p hp y hy l2
      rw [hfind p hp] at hy
      cases hy
      exact ih p hp (Entries.wf_vals_iff.1 h1.2 p hp) (h2 p hp).2 l2
  | h_struct n fs ih =>
    simp only [plainValue, Value.any, Value.wf, Value.isNaNNode, Bool.false_or,
      beq_self_eq_true, if_true, Values.any_eq_false]
    intro h1 h2 l
    exact plainList_self P fs l _ 0 (fun x hx => ih x hx (Values.wf_iff.1 h1 x hx) (h2 x hx))

theorem deepEntries_onto (m1 m2 : Entries) (hd1 : m1.distinct = true)
    (hlen : m1.length = m2.length) (h : deepEntries m1 m2 = true) :
    ∀ q ∈ m2.toList, ∃ x, m1.find? q.1 = some x := by
  rw [deepEntries_iff] at h
  have hall : ∀ p ∈ m1.toList, ∃ q ∈ m2.toList, p.1.goEq q.1 = true := by
    intro p hp
    obtain ⟨y, hy, _⟩ := h p hp
    obtain ⟨k2, hm, hk⟩ := Entries.find?_mem hy
    exact ⟨(k2, y), hm, hk⟩
  have honto := Entries.keys_onto m1.toList m2.toList (Entries.distinct_iff.1 hd1)
    (by rw [Entries.toList_length_eq, Entries.toList_length_eq, hlen]) hall
  intro q hq
  obtain ⟨p, hp, hpq⟩ := honto q hq
  exact ⟨p.2, Entries.find?_of_mem hd1 hp (Scalar.goEq_symm_of hpq)⟩

theorem plainValue_of_deepValueEqual (P : Printer) (a : Value) :
    ∀ b : Value, a.wf = true → b.wf = true → a.hasNaN = false → coherent a b = true →
      deepValueEqual a b = true → ∀ l, plainValue P l a b = [] := by
  induction a using Value.induct with
  | h_nil =>
    intro b _ _ _ _ h l
    cases b <;> simp only [deepValueEqual, Bool.false_eq_true] at h
    simp [plainValue]
  | h_scalar s =>
    intro b _ _ _ _ h l
    cases b <;> simp only [deepValueEqual, Bool.false_eq_true] at h
    simp [plainValue, h]
  | h_func sig c =>
    intro b _ _ _ _ h l
    cases b <;> simp only [deepValueEqual, Bool.false_eq_true] at h
    simp only [Bool.and_eq_true, beq_iff_eq, Option.isNone_iff_eq_none] at h
    simp [plainValue, h.1.1, h.1.2, h.2]
  | h_nilPtr t =>
    intro b _ _ _ _ h l
    cases b <;> simp only [deepValueEqual, Bool.false_eq_true] at h
    simp [plainValue, h]
  | h_ptr t a x ih =>
    intro b hw1 hw2 hn hc h l
    cases b <;> simp only [deepValueEqual, Bool.false_eq_true] at h
    rename_i t2 a2 y
    simp only [Bool.and_eq_true, beq_iff_eq, Bool.or_eq_true] at h
    obtain ⟨rfl, h⟩ := h
    simp only [coherent, Bool.and_eq_true, Bool.or_eq_true, Bool.not_eq_true',
      Bool.and_eq_false_iff, beq_eq_false_iff_ne, ne_eq, not_true_eq_false, false_or,
      decide_eq_true_eq] at hc
    rcases h with rfl | h
    · have hxy : x = y := by simpa using hc.1
      subst hxy
      exact plainValue_self P _ hw1 hn l
    · simp only [plainValue, beq_self_eq_true, if_true]
      simp only [Value.wf] at hw1 hw2
      simp only [Value.hasNaN, Value.any, Value.isNaNNode, Bool.false_or] at hn
      exact ih y hw1 hw2 hn hc.2 h l
  | h_nilSlice t =>
    intro b _ _ _ _ h l
    cases b <;> simp only [deepValueEqual, Bool.false_eq_true] at h
    simp [plainValue, h]
  | h_slice t base xs ih =>
    intro b hw1 hw2 hn hc h l
    cases b <;> simp only [deepValueEqual, Bool.false_eq_true] at h
    rename_i t2 b2 ys
    simp only [Bool.and_eq_true, beq_iff_eq, Bool.or_eq_true] at h
    obtain ⟨⟨rfl, hlen⟩, h⟩ := h
    simp only [coherent, Bool.and_eq_true, Bool.or_eq_true, Bool.not_eq_true',
      Bool.and_eq_false_iff, beq_eq_false_iff_ne, ne_eq, not_true_eq_false, false_or,
      decide_eq_true_eq] at hc
    rcases h with rfl | h
    · have hxy : xs = ys := by simpa [hlen] using hc.1
      subst hxy
      exact plainValue_self P _ hw1 hn l
    · simp only [plainValue, beq_self_eq_true, if_true, hlen]
      simp only [Value.wf] at hw1 hw2
      simp only [Value.hasNaN, Value.any, Value.isNaNNode, Bool.false_or,
        Values.any_eq_false] at hn
      exact plainList_eq_nil P xs ys l _ 0
        (fun x hx y hy hxy hcxy l2 => ih x hx y (Values.wf_iff.1 hw1 x hx)
          (Values.wf_iff.1 hw2 y hy) (hn x hx) hcxy hxy l2) h hc.2
  | h_nilMap k e =>
    intro b _ _ _ _ h l
    cases b <;> simp only [deepValueEqual, Bool.false_eq_true] at h
    simp only [Bool.and_eq_true, beq_iff_eq] at h
    simp [plainValue, h.1, h.2]
  | h_map k e i m ih =>
    intro b hw1 hw2 hn hc h l
    cases b <;> simp only [deepValueEqual, Bool.false_eq_true] at h
    rename_i k2 e2 i2 m2
    simp only [Bool.and_eq_true, beq_iff_eq, Bool.or_eq_true] at h
    obtain ⟨⟨⟨rfl, rfl⟩, hlen⟩, h⟩ := h
    simp only [coherent, Bool.and_eq_true, Bool.or_eq_true, Bool.not_eq_true',
      beq_eq_false_iff_ne, ne_eq, decide_eq_true_eq] at hc
    rcases h with rfl | h
    · have hxy : m = m2 := by simpa using hc.1
      subst hxy
      exact plainValue_self P _ hw1 hn l
    · simp only [plainValue, beq_self_eq_true, Bool.and_self, if_true]
      simp only [Value.wf, Bool.and_eq_true] at hw1 hw2
      simp only [Value.hasNaN, Value.any, Value.isNaNNode, Bool.false_or,
        Entries.any_vals_eq_false] at hn
      have hd := (deepEntries_iff m m2).1 h
      rw [onlyLeft_eq_nil P l m2 m (fun p hp => (hd p hp).imp (fun _ hy => hy.1)),
        onlyRight_eq_nil P l m m2 (deepEntries_onto m m2 hw1.1 hlen h),
        plainEntries_eq_nil P l m2 m ?_]
      · rfl
      · intro p hp y hy l2
        obtain ⟨y2, hy2, hxy⟩ := hd p hp
        rw [hy] at hy2
        cases hy2
        obtain ⟨k3, hm3, _⟩ := Entries.find?_mem hy
        exact ih p hp y (Entries.wf_vals_iff.1 hw1.2 p hp) (Entries.wf_vals_iff.1 hw2.2 _ hm3)
          (hn p hp).2 ((coherentEntries_iff m2 m).1 hc.2 p hp y hy) hxy l2
  | h_struct n fs ih =>
    intro b hw1 hw2 hn hc h l
    cases b <;> simp only [deepValueEqual, Bool.false_eq_true] at h
    rename_i n2 gs
    simp only [Bool.and_eq_true, beq_iff_eq] at h
    obtain ⟨rfl, h⟩ := h
    simp only [coherent] at hc
    simp only [plainValue, beq_self_eq_true, if_true]
    simp only [Value.wf] at hw1 hw2
    simp only [Value.hasNaN, Value.any, Value.isNaNNode, Bool.false_or,
      Values.any_eq_false] at hn
    exact plainList_eq_nil P fs gs l _ 0
      (fun x hx y hy hxy hcxy l2 => ih x hx y (Values.wf_iff.1 hw1 x hx)
        (Values.wf_iff.1 hw2 y hy) (hn x hx) hcxy hxy l2) h hc

/-! ## The record of visited values -/

theorem lookup_fresh {l : List ((Loc × GoType) × (Loc × GoType))} {x : Loc} (ty : GoType)
    (h : x ∉ l.map (fun p => p.1.1)) : l.lookup (x, ty) = none := by
  rw [List.lookup_eq_none_iff]
  intro p hp
  simp only [bne_iff_ne, ne_eq]
  intro he
  apply h
  rw [List.mem_map]
  exact ⟨p, hp, by rw [← he]⟩

theorem enter_fresh (P : Printer) (l : String) (st : Visited) (la lb : Option Loc)
    (ty : GoType) (a b : Value) (hla : ∀ x ∈ la.toList, x ∉ st.aLocs)
    (hlb : ∀ y ∈ lb.toList, y ∉ st.bLocs) :
    enter P l st la lb ty a b = (false, [], st.record la lb ty) := by
  cases la with
  | none => simp [enter, Visited.record]
  | some x =>
    cases lb with
    | none => simp [enter, Visited.record]
    | some y =>
      have hx : st.aVisited.lookup (x, ty) = none :=
        lookup_fresh ty (hla x (by simp))
      have hy : st.bVisited.lookup (y, ty) = none :=
        lookup_fresh ty (hlb y (by simp))
      simp [enter, hx, hy]

theorem guarded_fresh (P : Printer) (l : String) (st : Visited) (la lb : Option Loc)
    (iface : Bool) (a b : Value) (walk : Visited → List String × Visited)
    (hla : ∀ x ∈ la.toList, x ∉ st.aLocs) (hlb : ∀ y ∈ lb.toList, y ∉ st.bLocs) :
    guarded P l st la lb iface a b walk =
      if a.isNil || b.isNil then
        (if a.isNil && b.isNil then [] else [mismatch P l a b],
         if iface then st.record la lb .iface else st)
      else if a.typeOf != b.typeOf then
        ([mismatch P l a b], if iface then st.record la lb .iface else st)
      else walk (st.record la lb (if iface then .iface else a.typeOf.getD .iface)) := by
  cases iface <;> simp [guarded, enter_fresh P l st la lb _ a b hla hlb]

theorem Visited.within_refl (st : Visited) (A B : List Loc) : st.within st A B :=
  ⟨fun _ h => Or.inl h, fun _ h => Or.inl h⟩

theorem Visited.within_record (st : Visited) (la lb : Option Loc) (ty : GoType) :
    (st.record la lb ty).within st la.toList lb.toList := by
  cases la with
  | none => cases lb <;> exact Visited.within_refl _ _ _
  | some x =>
    cases lb with
    | none => exact Visited.within_refl _ _ _
    | some y =>
      constructor
      · intro z hz
        simp only [Visited.record, Visited.aLocs, List.map_cons, List.mem_cons] at hz
        rcases hz with rfl | hz
        · exact Or.inr (by simp)
        · exact Or.inl hz
      · intro z hz
        simp only [Visited.record, Visited.bLocs, List.map_cons, List.mem_cons] at hz
        rcases hz with rfl | hz
        · exact Or.inr (by simp)
        · exact Or.inl hz

theorem Visited.within_trans {st3 st2 st : Visited} {A1 A2 B1 B2 A B : List Loc}
    (h2 : st3.within st2 A2 B2) (h1 : st2.within st A1 B1)
    (hA1 : A1 ⊆ A) (hA2 : A2 ⊆ A) (hB1 : B1 ⊆ B) (hB2 : B2 ⊆ B) : st3.within st A B := by
  constructor
  · intro x hx
    rcases h2.1 x hx with h | h
    · rcases h1.1 x h with h | h
      · exact Or.inl h
      · exact Or.inr (hA1 h)
    · exact Or.inr (hA2 h)
  · intro y hy
    rcases h2.2 y hy with h | h
    · rcases h1.2 y h with h | h
      · exact Or.inl h
      · exact Or.inr (hB1 h)
    · exact Or.inr (hB2 h)

theorem Visited.within_mono {st2 st : Visited} {A1 B1 A B : List Loc}
    (h : st2.within st A1 B1) (hA : A1 ⊆ A) (hB : B1 ⊆ B) : st2.within st A B :=
  ⟨fun x hx => (h.1 x hx).imp id (fun m => hA m), fun y hy => (h.2 y hy).imp id (fun m => hB m)⟩

theorem Visited.fresh_left {st2 st : Visited} {A B C : List Loc} (h : st2.within st A B)
    (h1 : ∀ x ∈ C, x ∉ st.aLocs) (h2 : ∀ x ∈ C, x ∉ A) : ∀ x ∈ C, x ∉ st2.aLocs := by
  intro x hx hm
  rcases h.1 x hm with h | h
  · exact h1 x hx h
  · exact h2 x hx h

theorem Visited.fresh_right {st2 st : Visited} {A B C : List Loc} (h : st2.within st A B)
    (h1 : ∀ y ∈ C, y ∉ st.bLocs) (h2 : ∀ y ∈ C, y ∉ B) : ∀ y ∈ C, y ∉ st2.bLocs := by
  intro y hy hm
  rcases h.2 y hm with h | h
  · exact h1 y hy h
  · exact h2 y hy h

theorem Value.head_locs (P : Printer) (la : Option Loc) (iface : Bool) (a : Value) :
    la.toList ⊆ a.locs P la iface := by
  cases a <;> simp [Value.locs]

theorem guarded_leaf (P : Printer) (l : String) (st : Visited) (la lb : Option Loc)
    (iface : Bool) (a b : Value) (out : List String)
    (hla : ∀ x ∈ la.toList, x ∉ st.aLocs) (hlb : ∀ y ∈ lb.toList, y ∉ st.bLocs) :
    (guarded P l st la lb iface a b (fun s => (out, s))).1 =
      (if a.isNil || b.isNil then (if a.isNil && b.isNil then [] else [mismatch P l a b])
       else if a.typeOf != b.typeOf then [mismatch P l a b] else out) ∧
    (guarded P l st la lb iface a b (fun s => (out, s))).2.within st la.toList lb.toList := by
  rw [guarded_fresh P l st la lb iface a b _ hla hlb]
  constructor
  · split_ifs <;> rfl
  · split_ifs <;> first
      | exact Visited.within_record _ _ _ _
      | exact Visited.within_refl _ _ _

theorem diffValue_guarded (P : Printer) (l : String) (st : Visited) (la lb : Option Loc)
    (iface : Bool) (a b : Value) :
    ∃ walk, diffValue P l st la lb iface a b = guarded P l st la lb iface a b walk := by
  cases a <;> cases b <;> exact ⟨_, rfl⟩

theorem diffValue_ptr (P : Printer) (l : String) (st : Visited) (la lb : Option Loc)
    (iface : Bool) (t1 t2 : GoType) (a1 a2 : Nat) (x y : Value) :
    diffValue P l st la lb iface (.ptr t1 a1 x) (.ptr t2 a2 y) =
      guarded P l st la lb iface (.ptr t1 a1 x) (.ptr t2 a2 y) fun s =>
        diffValue P l s (some (.cell a1)) (some (.cell a2)) (t1 == .iface) x y := rfl

theorem diffValue_slice (P : Printer) (l : String) (st : Visited) (la lb : Option Loc)
    (iface : Bool) (t1 t2 : GoType) (b1 b2 : Nat) (xs ys : Values) :
    diffValue P l st la lb iface (.slice t1 b1 xs) (.slice t2 b2 ys) =
      guarded P l st la lb iface (.slice t1 b1 xs) (.slice t2 b2 ys) fun s =>
        if xs.length == ys.length then
          diffElems P l s b1 b2 (t1 == .iface) 0 xs ys
        else
          ([diffLine l (P.type (some (.slice t1)) ++ "[" ++ toString xs.length ++ "] != "
              ++ P.type (some (.slice t2)) ++ "[" ++ toString ys.length ++ "]")], s) := rfl

theorem diffValue_map (P : Printer) (l : String) (st : Visited) (la lb : Option Loc)
    (iface : Bool) (k1 e1 k2 e2 : GoType) (i1 i2 : Nat) (m1 m2 : Entries) :
    diffValue P l st la lb iface (.map k1 e1 i1 m1) (.map k2 e2 i2 m2) =
      guarded P l st la lb iface (.map k1 e1 i1 m1) (.map k2 e2 i2 m2) fun s =>
        ((onlyLeft P l m1 m2 ++ (diffEntries P l s (e1 == .iface) m1 m2).1)
          ++ onlyRight P l m1 m2,
         (diffEntries P l s (e1 == .iface) m1 m2).2) := rfl

theorem diffValue_struct (P : Printer) (l : String) (st : Visited) (la lb : Option Loc)
    (iface : Bool) (n1 n2 : String) (f1 f2 : Values) :
    diffValue P l st la lb iface (.struct n1 f1) (.struct n2 f2) =
      guarded P l st la lb iface (.struct n1 f1) (.struct n2 f2) fun s =>
        diffFields P l s n1 (if iface then none else la) (if iface then none else lb)
          0 f1 f2 := rfl

theorem plainValue_early (P : Printer) (l : String) (a b : Value)
    (h : (a.isNil || b.isNil) = true ∨ a.typeOf ≠ b.typeOf) :
    plainValue P l a b = if a.isNil && b.isNil then [] else [mismatch P l a b] := by
  cases a <;> cases b <;> simp [Value.isNil, Value.typeOf] at h <;>
    simp [plainValue, Value.isNil, h]
  all_goals first
    | exact Bool.eq_false_iff.2 (fun hg => h (Scalar.goEq_ty hg))
    | exact h
    | (intro h1 h2; exact absurd h2 (h h1))

theorem diffValue_early (P : Printer) (l : String) (st : Visited) (la lb : Option Loc)
    (iface : Bool) (a b : Value)
    (hfa : ∀ x ∈ a.locs P la iface, x ∉ st.aLocs) (hfb : ∀ y ∈ b.locs P lb iface, y ∉ st.bLocs)
    (h : (a.isNil || b.isNil) = true ∨ a.typeOf ≠ b.typeOf) :
    (diffValue P l st la lb iface a b).1 = plainValue P l a b ∧
    (diffValue P l st la lb iface a b).2.within st (a.locs P la iface) (b.locs P lb iface) := by
  have hla : ∀ x ∈ la.toList, x ∉ st.aLocs := fun x hx => hfa x (Value.head_locs P la iface a hx)
  have hlb : ∀ y ∈ lb.toList, y ∉ st.bLocs := fun y hy => hfb y (Value.head_locs P lb iface b hy)
  obtain ⟨walk, hw⟩ := diffValue_guarded P l st la lb iface a b
  rw [hw, guarded_fresh P l st la lb iface a b walk hla hlb, plainValue_early P l a b h]
  have hst : (if iface then st.record la lb GoType.iface else st).within st
      (a.locs P la iface) (b.locs P lb iface) := by
    split_ifs
    · exact Visited.within_mono (Visited.within_record st la lb _) (Value.head_locs P la iface a)
        (Value.head_locs P lb iface b)
    · exact Visited.within_refl _ _ _
  by_cases hn : (a.isNil || b.isNil) = true
  · rw [if_pos hn]
    exact ⟨rfl, hst⟩
  · rw [if_neg hn]
    have hty : (a.typeOf != b.typeOf) = true := by
      rcases h with h | h
      · exact absurd h hn
      · simpa using h
    rw [if_pos hty]
    refine ⟨?_, hst⟩
    have : (a.isNil && b.isNil) = false := by
      cases ha : a.isNil <;> simp_all
    simp [this]

theorem diffValue_leaf (P : Printer) (l : String) (st : Visited) (la lb : Option Loc)
    (iface : Bool) (a b : Value) (out : List String)
    (hfa : ∀ x ∈ a.locs P la iface, x ∉ st.aLocs) (hfb : ∀ y ∈ b.locs P lb iface, y ∉ st.bLocs)
    (hd : diffValue P l st la lb iface a b
      = guarded P l st la lb iface a b (fun s => (out, s)))
    (hn : (a.isNil || b.isNil) = false) (hty : a.typeOf = b.typeOf)
    (hp : plainValue P l a b = out) :
    (diffValue P l st la lb iface a b).1 = plainValue P l a b ∧
    (diffValue P l st la lb iface a b).2.within st (a.locs P la iface) (b.locs P lb iface) := by
  have hla : ∀ x ∈ la.toList, x ∉ st.aLocs := fun x hx => hfa x (Value.head_locs P la iface a hx)
  have hlb : ∀ y ∈ lb.toList, y ∉ st.bLocs := fun y hy => hfb y (Value.head_locs P lb iface b hy)
  have hg := guarded_leaf P l st la lb iface a b out hla hlb
  rw [hd, hp]
  refine ⟨?_, Visited.within_mono hg.2 (Value.head_locs P la iface a) (Value.head_locs P lb iface b)⟩
  rw [hg.1, hn, hty]
  simp

theorem guarded_walk (P : Printer) (l : String) (st : Visited) (la lb : Option Loc)
    (iface : Bool) (a b : Value) (walk : Visited → List String × Visited)
    (hla : ∀ x ∈ la.toList, x ∉ st.aLocs) (hlb : ∀ y ∈ lb.toList, y ∉ st.bLocs)
    (hn : (a.isNil || b.isNil) = false) (hty : a.typeOf = b.typeOf) :
    guarded P l st la lb iface a b walk =
      walk (st.record la lb (if iface then .iface else a.typeOf.getD .iface)) := by
  rw [guarded_fresh P l st la lb iface a b walk hla hlb, hn, hty]
  simp

theorem diffElems_plain (P : Printer) : ∀ (xs ys : Values) (l : String) (st : Visited)
    (b1 b2 : Nat) (iface : Bool) (i : Nat),
    (∀ x ∈ xs.toList, x.walksPlainly P) → xs.wf = true →
    (xs.locsElems P b1 iface).Nodup → (∀ x ∈ xs.locsElems P b1 iface, x ∉ st.aLocs) →
    (ys.locsElems P b2 iface).Nodup → (∀ y ∈ ys.locsElems P b2 iface, y ∉ st.bLocs) →
    (diffElems P l st b1 b2 iface i xs ys).1
        = plainList P l (fun i => "[" ++ toString i ++ "]") i xs ys ∧
    (diffElems P l st b1 b2 iface i xs ys).2.within st
      (xs.locsElems P b1 iface) (ys.locsElems P b2 iface)
  | .nil, .nil => by intros; exact ⟨rfl, Visited.within_refl _ _ _⟩
  | .nil, .cons _ _ => by intros; exact ⟨rfl, Visited.within_refl _ _ _⟩
  | .cons _ _, .nil => by intros; exact ⟨rfl, Visited.within_refl _ _ _⟩
  | .cons x xs, .cons y ys => by
      intro l st b1 b2 iface i ih hw hna hfa hnb hfb
      simp only [Values.locsElems, List.nodup_append, List.mem_append] at hna hfa hnb hfb
      simp only [Values.wf, Bool.and_eq_true] at hw
      have hx := ih x (by simp [Values.toList]) hw.1 y (relabel l ("[" ++ toString i ++ "]")) st
        (some (.cell b1)) (some (.cell b2)) iface hna.1 (fun z hz => hfa z (Or.inl hz))
        hnb.1 (fun z hz => hfb z (Or.inl hz))
      have hr := diffElems_plain P xs ys l
        (diffValue P (relabel l ("[" ++ toString i ++ "]")) st (some (.cell b1))
          (some (.cell b2)) iface x y).2
        (b1 + 1) (b2 + 1) iface (i + 1)
        (fun z hz => ih z (by simp [Values.toList, hz])) hw.2 hna.2.1
        (Visited.fresh_left hx.2 (fun z hz => hfa z (Or.inr hz)) (fun z hz hm => hna.2.2 hm hz))
        hnb.2.1
        (Visited.fresh_right hx.2 (fun z hz => hfb z (Or.inr hz)) (fun z hz hm => hnb.2.2 hm hz))
      refine ⟨?_, ?_⟩
      · show _ ++ _ = _ ++ _
        rw [hx.1, hr.1]
      · exact Visited.within_trans hr.2 hx.2 (List.subset_append_left _ _)
          (List.subset_append_right _ _) (List.subset_append_left _ _)
          (List.subset_append_right _ _)

theorem diffFields_plain (P : Printer) : ∀ (xs ys : Values) (l : String) (st : Visited)
    (n : String) (pa pb : Option Loc) (j : Nat),
    (∀ x ∈ xs.toList, x.walksPlainly P) → xs.wf = true →
    (xs.locsFields P n pa j).Nodup → (∀ x ∈ xs.locsFields P n pa j, x ∉ st.aLocs) →
    (ys.locsFields P n pb j).Nodup → (∀ y ∈ ys.locsFields P n pb j, y ∉ st.bLocs) →
    (diffFields P l st n pa pb j xs ys).1 = plainList P l (P.field n) j xs ys ∧
    (diffFields P l st n pa pb j xs ys).2.within st
      (xs.locsFields P n pa j) (ys.locsFields P n pb j)
  | .nil, .nil => by intros; exact ⟨rfl, Visited.within_refl _ _ _⟩
  | .nil, .cons _ _ => by intros; exact ⟨rfl, Visited.within_refl _ _ _⟩
  | .cons _ _, .nil => by intros; exact ⟨rfl, Visited.within_refl _ _ _⟩
  | .cons x xs, .cons y ys => by
      intro l st n pa pb j ih hw hna hfa hnb hfb
      simp only [Values.locsFields, List.nodup_append, List.mem_append] at hna hfa hnb hfb
      simp only [Values.wf, Bool.and_eq_true] at hw
      have hx := ih x (by simp [Values.toList]) hw.1 y (relabel l (P.field n j)) st
        (pa.map (Loc.field · j)) (pb.map (Loc.field · j)) (P.fieldType n j == .iface)
        hna.1 (fun z hz => hfa z (Or.inl hz)) hnb.1 (fun z hz => hfb z (Or.inl hz))
      have hr := diffFields_plain P xs ys l
        (diffValue P (relabel l (P.field n j)) st (pa.map (Loc.field · j))
          (pb.map (Loc.field · j)) (P.fieldType n j == .iface) x y).2
        n pa pb (j + 1)
        (fun z hz => ih z (by simp [Values.toList, hz])) hw.2 hna.2.1
        (Visited.fresh_left hx.2 (fun z hz => hfa z (Or.inr hz)) (fun z hz hm => hna.2.2 hm hz))
        hnb.2.1
        (Visited.fresh_right hx.2 (fun z hz => hfb z (Or.inr hz)) (fun z hz hm => hnb.2.2 hm hz))
      refine ⟨?_, ?_⟩
      · show _ ++ _ = _ ++ _
        rw [hx.1, hr.1]
      · exact Visited.within_trans hr.2 hx.2 (List.subset_append_left _ _)
          (List.subset_append_right _ _) (List.subset_append_left _ _)
          (List.subset_append_right _ _)

theorem diffEntries_plain (P : Printer) (m2 : Entries) : ∀ (es : Entries) (l : String)
    (st : Visited) (iface : Bool),
    (∀ p ∈ es.toList, p.2.walksPlainly P) → es.wf = true →
    (es.locsVals P iface).Nodup → (∀ x ∈ es.locsVals P iface, x ∉ st.aLocs) →
    (es.partnerLocs P iface m2).Nodup → (∀ y ∈ es.partnerLocs P iface m2, y ∉ st.bLocs) →
    (diffEntries P l st iface es m2).1 = plainEntries P l es m2 ∧
    (diffEntries P l st iface es m2).2.within st
      (es.locsVals P iface) (es.partnerLocs P iface m2)
  | .nil => by intros; exact ⟨rfl, Visited.within_refl _ _ _⟩
  | .cons k x rest => by
      intro l st iface ih hw hna hfa hnb hfb
      simp only [Entries.locsVals, List.nodup_append, List.mem_append] at hna hfa
      simp only [Entries.wf, Bool.and_eq_true] at hw
      simp only [Entries.partnerLocs] at hnb hfb
      simp only [diffEntries, plainEntries, Entries.locsVals, Entries.partnerLocs]
      cases hf : m2.find? k with
      | none =>
        rw [hf] at hnb hfb
        simp only [List.nil_append] at hnb hfb ⊢
        have hr := diffEntries_plain P m2 rest l st iface
          (fun z hz => ih z (by simp [Entries.toList, hz])) hw.2 hna.2.1
          (fun z hz => hfa z (Or.inr hz)) hnb hfb
        exact ⟨hr.1, Visited.within_mono hr.2 (List.subset_append_right _ _) (List.Subset.refl _)⟩
      | some y =>
        rw [hf] at hnb hfb
        simp only [List.nodup_append, List.mem_append] at hnb hfb
        have hx := ih (k, x) (by simp [Entries.toList]) hw.1 y
          (relabel l ("[" ++ P.key k ++ "]")) st none none iface
          hna.1 (fun z hz => hfa z (Or.inl hz)) hnb.1 (fun z hz => hfb z (Or.inl hz))
        have hr := diffEntries_plain P m2 rest l
          (diffValue P (relabel l ("[" ++ P.key k ++ "]")) st none none iface x y).2 iface
          (fun z hz => ih z (by simp [Entries.toList, hz])) hw.2 hna.2.1
          (Visited.fresh_left hx.2 (fun z hz => hfa z (Or.inr hz))
            (fun z hz hm => hna.2.2 hm hz))
          hnb.2.1
          (Visited.fresh_right hx.2 (fun z hz => hfb z (Or.inr hz))
            (fun z hz hm => hnb.2.2 hm hz))
        refine ⟨?_, ?_⟩
        · show _ ++ _ = _ ++ _
          rw [hx.1, hr.1]
        · exact Visited.within_trans hr.2 hx.2 (List.subset_append_left _ _)
            (List.subset_append_right _ _) (List.subset_append_left _ _)
            (List.subset_append_right _ _)

theorem Entries.locsVals_eq (P : Printer) (iface : Bool) : ∀ m : Entries,
    m.locsVals P iface = m.toList.flatMap (fun p => p.2.locs P none iface)
  | .nil => rfl
  | .cons k v rest => by
      simp only [Entries.locsVals, Entries.toList, List.flatMap_cons,
        Entries.locsVals_eq P iface rest]

theorem Entries.mem_partnerLocs (P : Printer) (iface : Bool) (m2 : Entries) {z : Loc} :
    ∀ es : Entries, z ∈ es.partnerLocs P iface m2 →
      ∃ p ∈ es.toList, ∃ y, m2.find? p.1 = some y ∧ z ∈ y.locs P none iface
  | .nil => by simp [Entries.partnerLocs]
  | .cons k x rest => by
      intro h
      simp only [Entries.partnerLocs, List.mem_append] at h
      rcases h with h | h
      · cases hf : m2.find? k with
        | none => rw [hf] at h; simp at h
        | some y =>
          rw [hf] at h
          exact ⟨(k, x), by simp [Entries.toList], y, hf, h⟩
      · obtain ⟨p, hp, y, hy, hz⟩ := Entries.mem_partnerLocs P iface m2 rest h
        exact ⟨p, by simp [Entries.toList, hp], y, hy, hz⟩

theorem Entries.partnerLocs_subset (P : Printer) (iface : Bool) (es m2 : Entries) :
    es.partnerLocs P iface m2 ⊆ m2.locsVals P iface := by
  intro z hz
  obtain ⟨p, _, y, hy, hzy⟩ := Entries.mem_partnerLocs P iface m2 es hz
  obtain ⟨q, hq, _⟩ := Entries.find?_mem hy
  rw [Entries.locsVals_eq, List.mem_flatMap]
  exact ⟨(q, y), hq, hzy⟩

theorem Entries.partnerLocs_nodup (P : Printer) (iface : Bool) (m2 : Entries)
    (h2 : (m2.locsVals P iface).Nodup) : ∀ es : Entries, es.distinct = true →
    (es.partnerLocs P iface m2).Nodup
  | .nil => by intro _; simp [Entries.partnerLocs]
  | .cons k x rest => by
      intro hd
      simp only [Entries.distinct, Bool.and_eq_true, Option.isNone_iff_eq_none] at hd
      have ih := Entries.partnerLocs_nodup P iface m2 h2 rest hd.2
      simp only [Entries.partnerLocs]
      cases hf : m2.find? k with
      | none => simpa using ih
      | some y =>
        rw [Entries.locsVals_eq, List.nodup_flatMap] at h2
        obtain ⟨q, hq, hkq⟩ := Entries.find?_mem hf
        refine List.nodup_append.2 ⟨h2.1 (q, y) hq, ih, ?_⟩
        intro z hz1 hz2
        obtain ⟨p, hp, y2, hy2, hzy2⟩ := Entries.mem_partnerLocs P iface m2 rest hz2
        obtain ⟨q2, hq2, hpq2⟩ := Entries.find?_mem hy2
        have hne : (q, y) ≠ (q2, y2) := by
          intro he
          simp only [Prod.mk.injEq] at he
          have h1 : k.goEq p.1 = true := by
            refine Scalar.goEq_trans hkq ?_
            rw [he.1]
            exact Scalar.goEq_symm_of hpq2
          have h3 := Entries.find?_eq_none.1 hd.1 p hp
          rw [h1] at h3
          cases h3
        have hsym : Symmetric (Function.onFun List.Disjoint
            (fun p : Scalar × Value => p.2.locs P none iface)) :=
          fun _ _ h => List.Disjoint.symm h
        exact h2.2.forall hsym hq hq2 hne hz1 hzy2

theorem diffValue_plain (P : Printer) (a : Value) : a.walksPlainly P := by
  induction a using Value.induct with
  | h_nil =>
    intro _ b l st la lb iface _ hfa _ hfb
    exact diffValue_early P l st la lb iface _ b hfa hfb (Or.inl (by simp [Value.isNil]))
  | h_scalar s =>
    intro _ b l st la lb iface _ hfa _ hfb
    by_cases he : ((Value.scalar s).isNil || b.isNil) = true ∨ (Value.scalar s).typeOf ≠ b.typeOf
    · exact diffValue_early P l st la lb iface _ b hfa hfb he
    · simp only [not_or, Bool.not_eq_true, not_not] at he
      obtain ⟨hn, hty⟩ := he
      cases b <;> simp only [Value.typeOf, Option.some.injEq, GoType.named.injEq,
        reduceCtorEq] at hty
      · exact diffValue_leaf P l st la lb iface _ _ _ hfa hfb rfl hn
          (by simp [Value.typeOf, hty]) rfl
      · exact diffValue_leaf P l st la lb iface _ _ _ hfa hfb rfl hn
          (by simp [Value.typeOf, hty]) rfl
  | h_func sig c =>
    intro _ b l st la lb iface _ hfa _ hfb
    by_cases he : ((Value.func sig c).isNil || b.isNil) = true ∨ (Value.func sig c).typeOf ≠ b.typeOf
    · exact diffValue_early P l st la lb iface _ b hfa hfb he
    · simp only [not_or, Bool.not_eq_true, not_not] at he
      obtain ⟨hn, hty⟩ := he
      cases b <;> simp only [Value.typeOf, Option.some.injEq, GoType.func.injEq,
        reduceCtorEq] at hty
      subst hty
      exact diffValue_leaf P l st la lb iface _ _ _ hfa hfb rfl hn rfl
        (by simp [plainValue])
  | h_nilPtr t =>
    intro _ b l st la lb iface _ hfa _ hfb
    by_cases he : ((Value.nilPtr t).isNil || b.isNil) = true ∨ (Value.nilPtr t).typeOf ≠ b.typeOf
    · exact diffValue_early P l st la lb iface _ b hfa hfb he
    · simp only [not_or, Bool.not_eq_true, not_not] at he
      obtain ⟨hn, hty⟩ := he
      cases b <;> simp only [Value.typeOf, Option.some.injEq, GoType.ptr.injEq,
        reduceCtorEq] at hty
      · subst hty
        exact diffValue_leaf P l st la lb iface _ _ _ hfa hfb rfl hn rfl
          (by simp [plainValue])
      · subst hty
        exact diffValue_leaf P l st la lb iface _ _ _ hfa hfb rfl hn rfl rfl
  | h_ptr t a1 x ih =>
    intro hw b l st la lb iface hna hfa hnb hfb
    by_cases he : ((Value.ptr t a1 x).isNil || b.isNil) = true ∨ (Value.ptr t a1 x).typeOf ≠ b.typeOf
    · exact diffValue_early P l st la lb iface _ b hfa hfb he
    · simp only [not_or, Bool.not_eq_true, not_not] at he
      obtain ⟨hn, hty⟩ := he
      cases b <;> simp only [Value.typeOf, Option.some.injEq, GoType.ptr.injEq,
        reduceCtorEq] at hty
      · subst hty
        exact diffValue_leaf P l st la lb iface _ _ _ hfa hfb rfl hn rfl rfl
      · rename_i t2 a2 y
        subst hty
        have hla : ∀ z ∈ la.toList, z ∉ st.aLocs :=
          fun z hz => hfa z (Value.head_locs P la iface _ hz)
        have hlb : ∀ z ∈ lb.toList, z ∉ st.bLocs :=
          fun z hz => hfb z (Value.head_locs P lb iface _ hz)
        simp only [Value.locs, List.mem_append] at hna hfa hnb hfb
        have hna2 := List.nodup_append.1 hna
        have hnb2 := List.nodup_append.1 hnb
        simp only [Value.wf] at hw
        have hrec := Visited.within_record st la lb
          (if iface then GoType.iface else (Value.ptr t a1 x).typeOf.getD .iface)
        have hx := ih hw y l _ (some (.cell a1)) (some (.cell a2)) (t == .iface) hna2.2.1
          (Visited.fresh_left hrec (fun z hz => hfa z (Or.inr hz))
            (fun z hz hm => hna2.2.2 hm hz))
          hnb2.2.1
          (Visited.fresh_right hrec (fun z hz => hfb z (Or.inr hz))
            (fun z hz hm => hnb2.2.2 hm hz))
        have hd : diffValue P l st la lb iface (.ptr t a1 x) (.ptr t a2 y) =
            diffValue P l (st.record la lb
              (if iface then GoType.iface else (Value.ptr t a1 x).typeOf.getD .iface))
              (some (.cell a1)) (some (.cell a2)) (t == .iface) x y := by
          rw [diffValue_ptr, guarded_walk P l st la lb iface _ _ _ hla hlb hn rfl]
        have hp : plainValue P l (.ptr t a1 x) (.ptr t a2 y) = plainValue P l x y := by
          simp only [plainValue, beq_self_eq_true, if_true]
        rw [hd, hp]
        exact ⟨hx.1, Visited.within_trans hx.2 hrec (List.subset_append_left _ _)
          (List.subset_append_right _ _) (List.subset_append_left _ _)
          (List.subset_append_right _ _)⟩
  | h_nilSlice t =>
    intro _ b l st la lb iface _ hfa _ hfb
    by_cases he : ((Value.nilSlice t).isNil || b.isNil) = true ∨ (Value.nilSlice t).typeOf ≠ b.typeOf
    · exact diffValue_early P l st la lb iface _ b hfa hfb he
    · simp only [not_or, Bool.not_eq_true, not_not] at he
      obtain ⟨hn, hty⟩ := he
      cases b <;> simp only [Value.typeOf, Option.some.injEq, GoType.slice.injEq,
        reduceCtorEq] at hty
      · subst hty
        exact diffValue_leaf P l st la lb iface _ _ _ hfa hfb rfl hn rfl
          (by simp [plainValue])
      · subst hty
        exact diffValue_leaf P l st la lb iface _ _ _ hfa hfb rfl hn rfl
          (by simp [plainValue])
  | h_slice t b1 xs ih =>
    intro hw b l st la lb iface hna hfa hnb hfb
    by_cases he : ((Value.slice t b1 xs).isNil || b.isNil) = true ∨
        (Value.slice t b1 xs).typeOf ≠ b.typeOf
    · exact diffValue_early P l st la lb iface _ b hfa hfb he
    · simp only [not_or, Bool.not_eq_true, not_not] at he
      obtain ⟨hn, hty⟩ := he
      cases b <;> simp only [Value.typeOf, Option.some.injEq, GoType.slice.injEq,
        reduceCtorEq] at hty
      · subst hty
        exact diffValue_leaf P l st la lb iface _ _ _ hfa hfb rfl hn rfl
          (by simp [plainValue])
      · rename_i t2 b2 ys
        subst hty
        have hla : ∀ z ∈ la.toList, z ∉ st.aLocs :=
          fun z hz => hfa z (Value.head_locs P la iface _ hz)
        have hlb : ∀ z ∈ lb.toList, z ∉ st.bLocs :=
          fun z hz => hfb z (Value.head_locs P lb iface _ hz)
        simp only [Value.locs, List.mem_append] at hna hfa hnb hfb
        have hna2 := List.nodup_append.1 hna
        have hnb2 := List.nodup_append.1 hnb
        simp only [Value.wf] at hw
        have hrec := Visited.within_record st la lb
          (if iface then GoType.iface else (Value.slice t b1 xs).typeOf.getD .iface)
        rw [diffValue_slice, guarded_walk P l st la lb iface _ _ _ hla hlb hn rfl]
        by_cases hlen : (xs.length == ys.length) = true
        · have hp : plainValue P l (.slice t b1 xs) (.slice t b2 ys) =
              plainList P l (fun i => "[" ++ toString i ++ "]") 0 xs ys := by
            simp only [plainValue, beq_self_eq_true, if_true, hlen]
          have hxs := diffElems_plain P xs ys l _ b1 b2 (t == .iface) 0 ih hw hna2.2.1
            (Visited.fresh_left hrec (fun z hz => hfa z (Or.inr hz))
              (fun z hz hm => hna2.2.2 hm hz))
            hnb2.2.1
            (Visited.fresh_right hrec (fun z hz => hfb z (Or.inr hz))
              (fun z hz hm => hnb2.2.2 hm hz))
          rw [if_pos hlen, hp]
          exact ⟨hxs.1, Visited.within_trans hxs.2 hrec (List.subset_append_left _ _)
            (List.subset_append_right _ _) (List.subset_append_left _ _)
            (List.subset_append_right _ _)⟩
        · have hp : plainValue P l (.slice t b1 xs) (.slice t b2 ys) =
              [diffLine l (P.type (some (.slice t)) ++ "[" ++ toString xs.length ++ "] != "
                ++ P.type (some (.slice t)) ++ "[" ++ toString ys.length ++ "]")] := by
            simp only [plainValue, beq_self_eq_true, if_true, hlen, Bool.false_eq_true,
              if_false]
          rw [if_neg hlen, hp]
          exact ⟨rfl, Visited.within_mono hrec (List.subset_append_left _ _)
            (List.subset_append_left _ _)⟩
  | h_nilMap k e =>
    intro _ b l st la lb iface _ hfa _ hfb
    by_cases he : ((Value.nilMap k e).isNil || b.isNil) = true ∨ (Value.nilMap k e).typeOf ≠ b.typeOf
    · exact diffValue_early P l st la lb iface _ b hfa hfb he
    · simp only [not_or, Bool.not_eq_true, not_not] at he
      obtain ⟨hn, hty⟩ := he
      cases b <;> simp only [Value.typeOf, Option.some.injEq, GoType.map.injEq,
        reduceCtorEq] at hty
      · obtain ⟨rfl, rfl⟩ := hty
        exact diffValue_leaf P l st la lb iface _ _ _ hfa hfb rfl hn rfl
          (by simp [plainValue])
      · obtain ⟨rfl, rfl⟩ := hty
        exact diffValue_leaf P l st la lb iface _ _ _ hfa hfb rfl hn rfl
          (by simp [plainValue])
  | h_map k e i m ih =>
    intro hw b l st la lb iface hna hfa hnb hfb
    by_cases he : ((Value.map k e i m).isNil || b.isNil) = true ∨
        (Value.map k e i m).typeOf ≠ b.typeOf
    · exact diffValue_early P l st la lb iface _ b hfa hfb he
    · simp only [not_or, Bool.not_eq_true, not_not] at he
      obtain ⟨hn, hty⟩ := he
      cases b <;> simp only [Value.typeOf, Option.some.injEq, GoType.map.injEq,
        reduceCtorEq] at hty
      · obtain ⟨rfl, rfl⟩ := hty
        exact diffValue_leaf P l st la lb iface _ _ _ hfa hfb rfl hn rfl
          (by simp [plainValue])
      · rename_i k2 e2 i2 m2
        obtain ⟨rfl, rfl⟩ := hty
        have hla : ∀ z ∈ la.toList, z ∉ st.aLocs :=
          fun z hz => hfa z (Value.head_locs P la iface _ hz)
        have hlb : ∀ z ∈ lb.toList, z ∉ st.bLocs :=
          fun z hz => hfb z (Value.head_locs P lb iface _ hz)
        simp only [Value.locs, List.mem_append] at hna hfa hnb hfb
        have hna2 := List.nodup_append.1 hna
        have hnb2 := List.nodup_append.1 hnb
        simp only [Value.wf, Bool.and_eq_true] at hw
        have hrec := Visited.within_record st la lb
          (if iface then GoType.iface else (Value.map k e i m).typeOf.getD .iface)
        have hsub := Entries.partnerLocs_subset P (e == .iface) m m2
        have hm := diffEntries_plain P m2 m l _ (e == .iface) ih hw.2 hna2.2.1
          (Visited.fresh_left hrec (fun z hz => hfa z (Or.inr hz))
            (fun z hz hm => hna2.2.2 hm hz))
          (Entries.partnerLocs_nodup P (e == .iface) m2 hnb2.2.1 m hw.1)
          (Visited.fresh_right hrec (fun z hz => hfb z (Or.inr (hsub hz)))
            (fun z hz hm => hnb2.2.2 hm (hsub hz)))
        have hp : plainValue P l (.map k e i m) (.map k e i2 m2) =
            onlyLeft P l m m2 ++ plainEntries P l m m2 ++ onlyRight P l m m2 := by
          simp only [plainValue, beq_self_eq_true, Bool.and_self, if_true]
        rw [diffValue_map, guarded_walk P l st la lb iface _ _ _ hla hlb hn rfl, hp]
        refine ⟨?_, Visited.within_trans hm.2 hrec (List.subset_append_left _ _)
          (List.subset_append_right _ _) (List.subset_append_left _ _)
          (fun z hz => List.subset_append_right _ _ (hsub hz))⟩
        show _ ++ _ ++ _ = _
        rw [hm.1]
  | h_struct n fs ih =>
    intro hw b l st la lb iface hna hfa hnb hfb
    by_cases he : ((Value.struct n fs).isNil || b.isNil) = true ∨
        (Value.struct n fs).typeOf ≠ b.typeOf
    · exact diffValue_early P l st la lb iface _ b hfa hfb he
    · simp only [not_or, Bool.not_eq_true, not_not] at he
      obtain ⟨hn, hty⟩ := he
      cases b <;> simp only [Value.typeOf, Option.some.injEq, GoType.named.injEq,
        reduceCtorEq] at hty
      · exact diffValue_leaf P l st la lb iface _ _ _ hfa hfb rfl hn
          (by simp [Value.typeOf, hty]) rfl
      · rename_i n2 gs
        subst hty
        have hla : ∀ z ∈ la.toList, z ∉ st.aLocs :=
          fun z hz => hfa z (Value.head_locs P la iface _ hz)
        have hlb : ∀ z ∈ lb.toList, z ∉ st.bLocs :=
          fun z hz => hfb z (Value.head_locs P lb iface _ hz)
        simp only [Value.locs, List.mem_append] at hna hfa hnb hfb
        have hna2 := List.nodup_append.1 hna
        have hnb2 := List.nodup_append.1 hnb
        simp only [Value.wf] at hw
        have hrec := Visited.within_record st la lb
          (if iface then GoType.iface else (Value.struct n fs).typeOf.getD .iface)
        have hf := diffFields_plain P fs gs l _ n (if iface then none else la)
          (if iface then none else lb) 0 ih hw hna2.2.1
          (Visited.fresh_left hrec (fun z hz => hfa z (Or.inr hz))
            (fun z hz hm => hna2.2.2 hm hz))
          hnb2.2.1
          (Visited.fresh_right hrec (fun z hz => hfb z (Or.inr hz))
            (fun z hz hm => hnb2.2.2 hm hz))
        have hp : plainValue P l (.struct n fs) (.struct n gs) =
            plainList P l (P.field n) 0 fs gs := by
          simp only [plainValue, beq_self_eq_true, if_true]
        rw [diffValue_struct, guarded_walk P l st la lb iface _ _ _ hla hlb hn rfl, hp]
        exact ⟨hf.1, Visited.within_trans hf.2 hrec (List.subset_append_left _ _)
          (List.subset_append_right _ _) (List.subset_append_left _ _)
          (List.subset_append_right _ _)⟩

/-! ## Top-level facts on `DeepEqual` and `Match` -/

theorem DeepEqual_symm (a b : Value) (ha : a.wf = true) (hb : b.wf = true) :
    DeepEqual a b = DeepEqual b a := by
  have h : deepValueEqual a b = deepValueEqual b a := by
    rw [Bool.eq_iff_iff]
    exact ⟨deepValueEqual_symm a b ha hb, deepValueEqual_symm b a hb ha⟩
  unfold DeepEqual
  rw [h, Bool.or_comm, Bool.and_comm]
  by_cases ht : a.typeOf = b.typeOf
  · simp [ht]
  · have ht2 : ¬ b.typeOf = a.typeOf := fun e => ht e.symm
    simp [ht, ht2]

theorem Match_of_not_nil (actual expected : Value) (h : actual.isNil = false) :
    (DiffEqual expected).Match actual = (DeepEqual actual expected, none) := by
  simp [DiffEqualMatcher.Match, DiffEqual, h]

theorem Value.isNil_iff (v : Value) : v.isNil = true ↔ v = .nil := by
  cases v <;> simp [Value.isNil]

theorem isNil_of_composite {v : Value} (h : v.isComposite = true) : v.isNil = false := by
  cases v <;> simp_all [Value.isComposite, Value.isNil]

theorem Diff_of_Match (P : Printer) (actual expected : Value)
    (ha : actual.wf = true) (he : expected.wf = true) (hc : coherent actual expected = true)
    (hn : actual.hasNaN = false) (hua : actual.unshared P = true)
    (hue : expected.unshared P = true)
    (h : ((DiffEqual expected).Match actual).1 = true) :
    Diff P actual expected = [] := by
  unfold DiffEqualMatcher.Match DiffEqual DeepEqual at h
  cases h1 : actual.isNil <;> cases h2 : expected.isNil <;> simp [h1, h2] at h
  have hp := plainValue_of_deepValueEqual P actual expected ha he hn hc h.2 ""
  have hd := diffValue_plain P actual ha expected "" ⟨[], []⟩ none none true
    (of_decide_eq_true hua) (fun _ _ => by simp [Visited.aLocs])
    (of_decide_eq_true hue) (fun _ _ => by simp [Visited.bLocs])
  unfold Diff
  rw [hd.1, hp]

/-! ## The claims -/

/-- C1: `Match` returns a non-nil error exactly when `actual` and `expected` are both the
nil interface, and the boolean it returns with the error is false. -/
theorem Match_error_iff_both_nil (actual expected : Value) :
    (((DiffEqual expected).Match actual).2 ≠ none ↔ (actual = .nil ∧ expected = .nil)) ∧
    (((DiffEqual expected).Match actual).2 ≠ none →
      ((DiffEqual expected).Match actual).1 = false) := by
  cases actual <;> cases expected <;> simp [DiffEqualMatcher.Match, DiffEqual, Value.isNil]

/-- C2: when `actual` and `expected` are not both nil, `Match` returns the verdict of
`reflect.DeepEqual(actual, Expected)` with a nil error: `(true, nil)` when the two are
deeply equal and `(false, nil)` otherwise. -/
theorem Match_eq_DeepEqual (actual expected : Value)
    (h : ¬ (actual = .nil ∧ expected = .nil)) :
    (DiffEqual expected).Match actual = (DeepEqual actual expected, none) ∧
    (DeepEqual actual expected = true → (DiffEqual expected).Match actual = (true, none)) ∧
    (DeepEqual actual expected = false → (DiffEqual expected).Match actual = (false, none)) := by
  have hm : (DiffEqual expected).Match actual = (DeepEqual actual expected, none) := by
    have : (actual.isNil && expected.isNil) = false := by
      rw [Bool.eq_false_iff]
      intro hb
      rw [Bool.and_eq_true, Value.isNil_iff, Value.isNil_iff] at hb
      exact h hb
    simp [DiffEqualMatcher.Match, DiffEqual, this]
  refine ⟨hm, fun ht => ?_, fun hf => ?_⟩
  · rw [hm, ht]
  · rw [hm, hf]

/-- Witness of C2: the integer 5 matched against the integer 5. -/
theorem Match_eq_DeepEqual_witness :
    (DiffEqual (.scalar (.int "int" 5))).Match (.scalar (.int "int" 5)) = (true, none) :=
  (Match_eq_DeepEqual (.scalar (.int "int" 5)) (.scalar (.int "int" 5)) (by simp)).2.1
    (by decide)

/-- Counterexample to C3 as stated: a non-nil function value matched against itself, and a
NaN matched against a NaN of the same bits, both give `(false, nil)`. -/
theorem Match_not_reflexive :
    (DiffEqual someFunc).Match someFunc = (false, none) ∧
    (DiffEqual (.scalar (.float "float64" nanBits))).Match (.scalar (.float "float64" nanBits))
      = (false, none) := by
  decide

/-- C3, amended: for every non-nil value that holds no non-nil function and no NaN,
`Match` against an equal-by-structure copy (the same tree, its objects at any other
addresses) returns `(true, nil)`. -/
theorem Match_reflexive (v : Value) (f : Nat → Nat) (hv : v ≠ .nil) (hw : v.wf = true)
    (hn : v.hasNaN = false) (hf : v.hasFunc = false) :
    (DiffEqual (v.relocate f)).Match v = (true, none) := by
  have hnil : v.isNil = false := by
    rw [Bool.eq_false_iff]
    exact fun h => hv ((Value.isNil_iff v).1 h)
  rw [Match_of_not_nil _ _ hnil, DeepEqual_relocate f v hw hn hf]

/-- Witness of C3: the sample record against a copy of it a hundred addresses further. -/
theorem Match_reflexive_witness :
    (DiffEqual (sampleRecord.relocate (fun a => a + 100))).Match sampleRecord = (true, none) :=
  Match_reflexive sampleRecord (fun a => a + 100) (by decide) (by decide) (by decide)
    (by decide)

/-- C4: for well-formed values `A` and `E`, `Match(A)` on a matcher expecting `E` returns
the same boolean and the same error as `Match(E)` on a matcher expecting `A`. -/
theorem Match_symmetric (A E : Value) (hA : A.wf = true) (hE : E.wf = true) :
    (DiffEqual E).Match A = (DiffEqual A).Match E := by
  simp only [DiffEqualMatcher.Match, DiffEqual]
  rw [DeepEqual_symm A E hA hE, Bool.and_comm]

/-- Witness of C4: two maps with the same entries met in different orders match both
ways. -/
theorem Match_symmetric_witness :
    (DiffEqual mapBA).Match mapAB = (DiffEqual mapAB).Match mapBA ∧
    (DiffEqual mapBA).Match mapAB = (true, none) :=
  ⟨Match_symmetric mapAB mapBA (by decide) (by decide), by decide⟩

/-- C5: `FailureMessage(actual)` is the six parts `Expected`, the rendering of `actual` at
indentation 1, `to equal`, the rendering of `expected` at indentation 1, `with diff` and
the rendering at indentation 1 of the diff lines joined by newlines, in this order,
separated by single newlines. -/
theorem FailureMessage_layout (P : Printer) (actual expected : Value) :
    (DiffEqual expected).FailureMessage P actual =
      String.intercalate "\n"
        ["Expected",
         P.Object actual 1,
         "to equal",
         P.Object expected 1,
         "with diff",
         P.Object (.scalar (.string "string"
           (String.intercalate "\n" (Diff P actual expected)))) 1] := by
  apply String.ext
  simp [DiffEqualMatcher.FailureMessage, DiffEqualMatcher.message, DiffEqual, Sprintf,
    Sprintf.expand, String.intercalate, String.intercalate.go]

/-- C6: `NegatedFailureMessage(actual)` is `FailureMessage(actual)` with the connector
line `to equal` replaced by `not to equal`: both are the same prefix (`Expected` and the
rendering of `actual`), the connector, and the same suffix (the rendering of `expected`,
`with diff`, the rendered diff). -/
theorem NegatedFailureMessage_layout (P : Printer) (actual expected : Value) :
    (DiffEqual expected).FailureMessage P actual =
      "Expected\n" ++ P.Object actual 1 ++ "\n" ++ "to equal" ++ "\n" ++
        (P.Object expected 1 ++ "\n" ++ "with diff" ++ "\n" ++
          P.Object (.scalar (.string "string"
            (String.intercalate "\n" (Diff P actual expected)))) 1) ∧
    (DiffEqual expected).NegatedFailureMessage P actual =
      "Expected\n" ++ P.Object actual 1 ++ "\n" ++ "not to equal" ++ "\n" ++
        (P.Object expected 1 ++ "\n" ++ "with diff" ++ "\n" ++
          P.Object (.scalar (.string "string"
            (String.intercalate "\n" (Diff P actual expected)))) 1) := by
  constructor <;> apply String.ext <;>
    simp [DiffEqualMatcher.FailureMessage, DiffEqualMatcher.NegatedFailureMessage,
      DiffEqualMatcher.message, DiffEqual, Sprintf, Sprintf.expand]

/-- Counterexample to C7 as stated: a pointer to a NaN matched against the same pointer
gives true (one pointer is deeply equal to itself), and the diff of the two has a line
(the NaN it points to differs from itself); a slice holding one pointer twice matches a
slice of two pointers to equal values, and the diff of the two has a line (the value met
again has another partner). -/
theorem Diff_nonempty_on_match :
    ((DiffEqual nanPointer).Match nanPointer = (true, none) ∧
      (Diff Printer.blank nanPointer nanPointer).length = 1) ∧
    ((DiffEqual twoOnes).Match twiceOne = (true, none) ∧
      (Diff Printer.blank twiceOne twoOnes).length = 1) := by
  decide

/-- C7, amended: when `Match(actual)` returns true, `actual` holds no NaN and neither
`actual` nor `expected` reaches one addressable value along two paths, the diff of
`actual` and `expected` has no lines.  The values are Go values: the keys of a map are
pairwise distinct (`wf`) and two references to one address refer to the same contents
(`coherent`). -/
theorem Diff_empty_on_match (P : Printer) (actual expected : Value)
    (ha : actual.wf = true) (he : expected.wf = true)
    (hc : coherent actual expected = true) (hn : actual.hasNaN = false)
    (hua : actual.unshared P = true) (hue : expected.unshared P = true)
    (h : ((DiffEqual expected).Match actual).1 = true) :
    Diff P actual expected = [] :=
  Diff_of_Match P actual expected ha he hc hn hua hue h

/-- Witness of C7: the sample record and a copy of it that shares the pointer at address
30 with it have an empty diff. -/
theorem Diff_empty_on_match_witness :
    Diff Printer.blank sampleRecord
      (sampleRecord.relocate (fun a => if a = 30 then a else a + 100)) = [] :=
  Diff_empty_on_match Printer.blank sampleRecord
    (sampleRecord.relocate (fun a => if a = 30 then a else a + 100))
    (by decide) (by decide) (by decide) (by decide) (by decide) (by decide) (by decide)

/-- C8: a number (an integer or a float of any numeric type) matched against a text of
any string type returns `(false, nil)`, whatever the two hold. -/
theorem Match_number_against_text (tn ts s : String) (n : Int) (bits : Nat) :
    (DiffEqual (.scalar (.string ts s))).Match (.scalar (.int tn n)) = (false, none) ∧
    (DiffEqual (.scalar (.string ts s))).Match (.scalar (.float tn bits)) = (false, none) := by
  simp [DiffEqualMatcher.Match, DiffEqual, DeepEqual, Value.isNil, deepValueEqual,
    Scalar.goEq]

/-- Counterexample to C9 as stated: two sequences holding a nil at the same place and the
same function next to it do not match, nor do two holding a nil and a NaN. -/
theorem nested_null_beside_func_differs :
    (nilAndFunc.isComposite = true ∧ nilAndFunc.hasNull = true ∧
      (DiffEqual (nilAndFunc.relocate (fun a => a + 1))).Match nilAndFunc = (false, none)) ∧
    (nilAndNaN.isComposite = true ∧ nilAndNaN.hasNull = true ∧
      (DiffEqual (nilAndNaN.relocate (fun a => a + 1))).Match nilAndNaN = (false, none)) := by
  decide

/-- C9, amended: a composite value holding a null somewhere, and no non-nil function and
no NaN, matches every copy of it (same structure, the null at the same path) with
`(true, nil)`: the nested null raises no error. -/
theorem Match_nested_null (v : Value) (f : Nat → Nat) (hc : v.isComposite = true)
    (_hnull : v.hasNull = true) (hw : v.wf = true) (hn : v.hasNaN = false)
    (hf : v.hasFunc = false) :
    (DiffEqual (v.relocate f)).Match v = (true, none) := by
  rw [Match_of_not_nil _ _ (isNil_of_composite hc), DeepEqual_relocate f v hw hn hf]

/-- Witness of C9: the sample record, which holds a nil interface and nil pointers. -/
theorem Match_nested_null_witness :
    (DiffEqual (sampleRecord.relocate (fun a => a + 7))).Match sampleRecord = (true, none) :=
  Match_nested_null sampleRecord (fun a => a + 7) (by decide) (by decide) (by decide)
    (by decide) (by decide)

/-- C10: a typed nil as `actual` (a nil pointer, slice or map) never raises the error; it
matches a nil of the same type with `(true, nil)` and the untyped nil with
`(false, nil)`. -/
theorem Match_typed_nil (t k e : GoType) (expected : Value) :
    (((DiffEqual expected).Match (.nilPtr t)).2 = none ∧
     ((DiffEqual expected).Match (.nilSlice t)).2 = none ∧
     ((DiffEqual expected).Match (.nilMap k e)).2 = none) ∧
    ((DiffEqual (.nilPtr t)).Match (.nilPtr t) = (true, none) ∧
     (DiffEqual (.nilSlice t)).Match (.nilSlice t) = (true, none) ∧
     (DiffEqual (.nilMap k e)).Match (.nilMap k e) = (true, none)) ∧
    ((DiffEqual .nil).Match (.nilPtr t) = (false, none) ∧
     (DiffEqual .nil).Match (.nilSlice t) = (false, none) ∧
     (DiffEqual .nil).Match (.nilMap k e) = (false, none)) := by
  simp [DiffEqualMatcher.Match, DiffEqual, DeepEqual, Value.isNil, Value.typeOf,
    deepValueEqual]

end Megamatchers
